import Mathlib

/-!
Verification of the kakukuma cell-grid editor's edit-mutation and undo/redo core.

The development shallowly embeds the Rust sources:

* `src/history.rs`  — `CellMutation`, `Action`, the in-memory `History` stacks;
* `src/oplog.rs`    — the persistent operation log (header pointer + entry list);
* `src/tools.rs`    — `bresenham_line` and `flood_fill` over the fixed 32×32 canvas;
* `src/app.rs` / `src/cli/draw.rs` / `src/cli/history_cmd.rs` — the callers that
  expand symmetry, re-sample `old` values, and apply / invert mutation lists.

The cell type (`cell.rs`) is not present in the source tree; cells are therefore
treated as an abstract value type with decidable structural equality, exactly the
interface the spec gives ("Immutable value type; copied, never aliased; equality
is structural").  Grids backed by Rust `Vec` arrays are embedded as functions
`Nat → Nat → Cell` together with the declared width and height; all accesses are
bounds-checked against those dimensions, mirroring `Canvas::get` / `Canvas::set`.
File I/O in `oplog.rs` is elided: a log file is embedded as its parsed pure state
(header plus entry list) and the operations become pure functions on that state.
-/

namespace Kakukuma

/-- One cell mutation: a coordinate plus the prior and the new value
(src/history.rs, `CellMutation`). -/
structure CellMutation (Cell : Type) where
  x : Nat
  y : Nat
  old : Cell
  new : Cell
  deriving DecidableEq, Repr

/-- Modelled from the spec: the resizable canvas consumed by `history.rs` and the
CLI (the `canvas.rs` of that code version is not in the tree; only the fixed
32×32 variant is).  Per spec §3 a Grid is a width × height array of cells with
bounds-checked `get`/`set` that return "no-op"/`None` out of range, plus
wholesale replacement for snapshot restore.  The backing 2D array is embedded as
a function. -/
structure Grid (Cell : Type) where
  width : Nat
  height : Nat
  cells : Nat → Nat → Cell

namespace Grid

variable {Cell : Type}

/-- Bounds-checked read: `Canvas::get`. -/
def get (g : Grid Cell) (x y : Nat) : Option Cell :=
  if x < g.width ∧ y < g.height then some (g.cells x y) else none

/-- Bounds-checked write: `Canvas::set`; out-of-range writes are a no-op. -/
def set (g : Grid Cell) (x y : Nat) (c : Cell) : Grid Cell :=
  if x < g.width ∧ y < g.height then
    ⟨g.width, g.height, fun a b => if a = x ∧ b = y then c else g.cells a b⟩
  else g

/-- Wholesale replacement of the backing array and dimensions: `Canvas::replace`,
used by snapshot undo/redo. -/
def replace (_g : Grid Cell) (cs : Nat → Nat → Cell) (w hgt : Nat) : Grid Cell :=
  ⟨w, hgt, cs⟩

/-- Cell-for-cell equality of two grids: same dimensions and the same value at
every in-range coordinate. -/
def PointEq (g₁ g₂ : Grid Cell) : Prop :=
  g₁.width = g₂.width ∧ g₁.height = g₂.height ∧
    ∀ x, x < g₁.width → ∀ y, y < g₁.height → g₁.get x y = g₂.get x y

instance [DecidableEq Cell] (g₁ g₂ : Grid Cell) : Decidable (g₁.PointEq g₂) := by
  unfold PointEq
  infer_instance

end Grid

/-- An undoable unit of history (src/history.rs, `Action`): a list of cell
mutations or a whole-canvas snapshot, whose backing arrays are embedded as
functions. -/
inductive Action (Cell : Type) where
  | cellChange (mutations : List (CellMutation Cell))
  | canvasSnapshot (old_cells : Nat → Nat → Cell) (old_w old_h : Nat)
      (new_cells : Nat → Nat → Cell) (new_w new_h : Nat)

/-- An action is non-empty when it is not a `CellChange` with zero mutations —
`History::commit` rejects exactly the empty `CellChange`. -/
def Action.nonEmpty {Cell : Type} : Action Cell → Bool
  | .cellChange ms => !ms.isEmpty
  | .canvasSnapshot .. => true

/-- History cap (src/history.rs, `MAX_HISTORY`). -/
def MAX_HISTORY : Nat := 256

/-- The in-memory undo/redo engine (src/history.rs, `History`).  Stacks are
stored top-first: the Rust code pushes and pops at the back of a `Vec`; here the
top of the stack is the head of the list and `remove(0)` (evict the oldest)
becomes `dropLast`. -/
structure History (Cell : Type) where
  undo_stack : List (Action Cell)
  redo_stack : List (Action Cell)
  pending : Option (List (CellMutation Cell))

namespace History

variable {Cell : Type}

/-- Fresh history: `History::new`. -/
def new : History Cell := ⟨[], [], none⟩

/-- Commit an action (src/history.rs lines 72-82): reject an empty `CellChange`;
otherwise clear the redo stack, push onto the undo stack, and evict the oldest
entry if the cap is exceeded. -/
def commit (h : History Cell) (a : Action Cell) : History Cell :=
  match a with
  | .cellChange [] => h
  | _ =>
    let stack := a :: h.undo_stack
    ⟨if stack.length > MAX_HISTORY then stack.dropLast else stack, [], h.pending⟩

/-- Apply an action's `old` side to the grid: for a `CellChange` re-apply every
mutation's `old` value in reverse list order, for a snapshot restore the old
dimensions and cells (src/history.rs lines 85-96). -/
def applyActionOld (g : Grid Cell) (a : Action Cell) : Grid Cell :=
  match a with
  | .cellChange ms => ms.reverse.foldl (fun g m => g.set m.x m.y m.old) g
  | .canvasSnapshot oc ow oh _ _ _ => g.replace oc ow oh

/-- Apply an action's `new` side to the grid: forward order for a `CellChange`,
or restore the new snapshot (src/history.rs lines 105-116). -/
def applyActionNew (g : Grid Cell) (a : Action Cell) : Grid Cell :=
  match a with
  | .cellChange ms => ms.foldl (fun g m => g.set m.x m.y m.new) g
  | .canvasSnapshot _ _ _ nc nw nh => g.replace nc nw nh

/-- One `History::undo` call: pop the undo stack, apply the popped action's old
values, push it onto the redo stack; returns `false` with everything untouched
when the undo stack is empty (src/history.rs lines 85-102). -/
def undoStep (h : History Cell) (g : Grid Cell) : History Cell × Grid Cell × Bool :=
  match h.undo_stack with
  | [] => (h, g, false)
  | a :: rest => (⟨rest, a :: h.redo_stack, h.pending⟩, applyActionOld g a, true)

/-- One `History::redo` call, the mirror of `undoStep`
(src/history.rs lines 105-122). -/
def redoStep (h : History Cell) (g : Grid Cell) : History Cell × Grid Cell × Bool :=
  match h.redo_stack with
  | [] => (h, g, false)
  | a :: rest => (⟨a :: h.undo_stack, rest, h.pending⟩, applyActionNew g a, true)

/-- `History::can_undo`. -/
def canUndo (h : History Cell) : Bool :=
  !h.undo_stack.isEmpty

/-- `History::can_redo`. -/
def canRedo (h : History Cell) : Bool :=
  !h.redo_stack.isEmpty

end History

/-- Fold a per-mutation cell choice over a mutation list: each step writes
`f m` at the mutation's coordinate.  Both history replay directions are
instances of this fold. -/
def applyWith {Cell : Type} (f : CellMutation Cell → Cell) (g : Grid Cell)
    (ms : List (CellMutation Cell)) : Grid Cell :=
  ms.foldl (fun g m => g.set m.x m.y (f m)) g

/-- Apply a mutation list's `new` values to the grid in forward order — the
application loop shared by `App::apply_tool` (src/app.rs lines 252-255) and the
CLI `apply_and_save` (src/cli/draw.rs lines 42-44). -/
def applyMutations {Cell : Type} (g : Grid Cell) (ms : List (CellMutation Cell)) : Grid Cell :=
  applyWith (fun m => m.new) g ms

/-- A mutation list is correctly recorded against a grid when each mutation's
`old` field equals the live grid value at its coordinate at the moment that
mutation is applied (all earlier mutations of the same list already applied). -/
def recordedB {Cell : Type} [DecidableEq Cell] (g : Grid Cell) :
    List (CellMutation Cell) → Bool
  | [] => true
  | m :: rest => (g.get m.x m.y == some m.old) && recordedB (g.set m.x m.y m.new) rest

/-- A sequence of mutation lists is correctly recorded when each list is recorded
against the grid state produced by applying all earlier lists. -/
def recordedSeqB {Cell : Type} [DecidableEq Cell] (g : Grid Cell) :
    List (List (CellMutation Cell)) → Bool
  | [] => true
  | ms :: rest => recordedB g ms && recordedSeqB (applyMutations g ms) rest

/-- Apply and commit a sequence of `CellChange` actions, in order: for each list,
apply its `new` values to the canvas and commit it to the history. -/
def commitAll {Cell : Type} (h : History Cell) (g : Grid Cell)
    (as : List (List (CellMutation Cell))) : History Cell × Grid Cell :=
  as.foldl (fun p ms => (p.1.commit (.cellChange ms), applyMutations p.2 ms)) (h, g)

/-- Undo every action remaining on a stack, top first.  Calling `History::undo`
repeatedly until it returns `false` pops and inverts exactly the actions of the
undo stack from the top, so the resulting grid is this fold. -/
def undoStackAll {Cell : Type} (g : Grid Cell) : List (Action Cell) → Grid Cell
  | [] => g
  | a :: rest => undoStackAll (History.applyActionOld g a) rest

/-- Grid state after exhausting the undo stack of a history. -/
def undoAll {Cell : Type} (h : History Cell) (g : Grid Cell) : Grid Cell :=
  undoStackAll g h.undo_stack

/-! Persistent operation log (src/oplog.rs).  A log file is embedded as its
parsed state: the header `{pointer, total}` plus the entry list.  `read_raw` and
`write_raw` are file I/O and are elided; `append`, `pop_for_undo` and
`push_for_redo` become pure functions from state to state. -/

/-- Log header record (src/oplog.rs, `LogHeader`). -/
structure LogHeader where
  pointer : Nat
  total : Nat
  deriving DecidableEq, Repr

/-- One log entry (src/oplog.rs, `LogEntry`); mutation cell values use the
portable `LogCell` encoding in the source, which is again an opaque value type
here. -/
structure LogEntry (Cell : Type) where
  timestamp : String
  command : String
  mutations : List (CellMutation Cell)
  deriving DecidableEq, Repr

/-- The parsed state of a log file: header plus entries. -/
structure LogState (Cell : Type) where
  header : LogHeader
  entries : List (LogEntry Cell)
  deriving DecidableEq, Repr

/-- Entry cap (src/oplog.rs, `MAX_LOG_ENTRIES`). -/
def MAX_LOG_ENTRIES : Nat := 256

namespace Oplog

variable {Cell : Type}

/-- The state written by `init_log`: empty header, no entries; also what
`read_raw` yields for a missing file. -/
def initLog : LogState Cell := ⟨⟨0, 0⟩, []⟩

/-- Well-formedness of a log state: the pointer is within the entry list and the
recorded total matches it.  Every writer (`append`, `pop_for_undo`,
`push_for_redo`) re-establishes this; the Rust code assumes it when slicing. -/
def Wf (s : LogState Cell) : Prop :=
  s.header.pointer ≤ s.entries.length ∧ s.header.total = s.entries.length

instance (s : LogState Cell) : Decidable (Wf s) := by
  unfold Wf
  infer_instance

/-- `oplog::append` (src/oplog.rs lines 139-160): truncate the undone entries
(everything at or after the pointer), push the new entry, prune oldest-first to
the cap, and write back `pointer = total = new length`. -/
def append (s : LogState Cell) (e : LogEntry Cell) : LogState Cell :=
  let entries₁ := s.entries.take s.header.pointer
  let entries₂ := entries₁ ++ [e]
  let entries₃ :=
    if entries₂.length > MAX_LOG_ENTRIES then
      entries₂.drop (entries₂.length - MAX_LOG_ENTRIES)
    else entries₂
  ⟨⟨entries₃.length, entries₃.length⟩, entries₃⟩

/-- Folded `append` over a list of entries. -/
def appendAll (s : LogState Cell) (es : List (LogEntry Cell)) : LogState Cell :=
  es.foldl append s

/-- `oplog::pop_for_undo` (src/oplog.rs lines 175-195): error when the pointer is
already 0; otherwise move the pointer back by `min count pointer` and return the
entries that fell out of the active range, `entries[new_pointer..pointer]`, in
their stored (chronological) order.  The entry list itself is written back
unchanged. -/
def popForUndo (s : LogState Cell) (count : Nat) :
    Except String (LogState Cell × List (LogEntry Cell)) :=
  if s.header.pointer = 0 then .error "Nothing to undo"
  else
    let actual := min count s.header.pointer
    let newPointer := s.header.pointer - actual
    let undone := (s.entries.take s.header.pointer).drop newPointer
    .ok (⟨⟨newPointer, s.entries.length⟩, s.entries⟩, undone)

/-- `oplog::push_for_redo` (src/oplog.rs lines 198-219): error when nothing is
undone; otherwise move the pointer forward by `min count (len - pointer)` and
return the re-activated entries `entries[pointer..new_pointer]`.  The entry list
itself is written back unchanged. -/
def pushForRedo (s : LogState Cell) (count : Nat) :
    Except String (LogState Cell × List (LogEntry Cell)) :=
  let undoneCount := s.entries.length - s.header.pointer
  if undoneCount = 0 then .error "Nothing to redo"
  else
    let actual := min count undoneCount
    let newPointer := s.header.pointer + actual
    let redone := (s.entries.take newPointer).drop s.header.pointer
    .ok (⟨⟨newPointer, s.entries.length⟩, s.entries⟩, redone)

end Oplog

/-- The CLI undo command's application loop (src/cli/history_cmd.rs lines
16-22): iterate the returned entries first-to-last and each entry's mutation
list front-to-back, writing every mutation's `old` value to the canvas. -/
def cliUndoApply {Cell : Type} (g : Grid Cell) (entries : List (LogEntry Cell)) : Grid Cell :=
  entries.foldl (fun g e => e.mutations.foldl (fun g m => g.set m.x m.y m.old) g) g

/-! Symmetry expansion.  `src/symmetry.rs` is not in the tree (only its callers
are), so `apply_symmetry` is modelled from the spec. -/

/-- Symmetry mode (spec §3): off, one of the two axes, or both. -/
inductive SymmetryMode where
  | off
  | horizontal
  | vertical
  | quad
  deriving DecidableEq, Repr

/-- Modelled from the spec: the mirror coordinates of one source coordinate —
the original plus, per enabled axis, `mirror_x = width-1-x` and
`mirror_y = height-1-y`; Quad mirrors both axes independently, producing up to 4
coordinates including the original (spec §4.2). -/
def mirrorCoords (mode : SymmetryMode) (w hgt x y : Nat) : List (Nat × Nat) :=
  (x, y) :: (match mode with
    | .off => []
    | .horizontal => [(w - 1 - x, y)]
    | .vertical => [(x, hgt - 1 - y)]
    | .quad => [(w - 1 - x, y), (x, hgt - 1 - y), (w - 1 - x, hgt - 1 - y)])

/-- Keep only the first mutation for each coordinate, given the coordinates
already seen (spec §4.2: "Deduplicate by coordinate"). -/
def dedupByCoord {Cell : Type} : List (Nat × Nat) → List (CellMutation Cell) →
    List (CellMutation Cell)
  | _, [] => []
  | seen, m :: rest =>
    if (m.x, m.y) ∈ seen then dedupByCoord seen rest
    else m :: dedupByCoord ((m.x, m.y) :: seen) rest

/-- Modelled from the spec: `symmetry::apply_symmetry(mutations, mode, width,
height)` (src/symmetry.rs, absent from the tree; called at src/cli/draw.rs lines
34-39).  Each input mutation is expanded to its mirror coordinates, out-of-bounds
coordinates are silently dropped, and the result is deduplicated by coordinate.
The mirrored mutations clone the source mutation's `old` and `new` values: the
comment at src/app.rs lines 240-241 records that "symmetry mutations have wrong
`old` values since they were cloned from the original mutation", which is why the
interactive path re-samples them afterwards. -/
def applySymmetry {Cell : Type} (ms : List (CellMutation Cell)) (mode : SymmetryMode)
    (w hgt : Nat) : List (CellMutation Cell) :=
  dedupByCoord [] (ms.flatMap (fun m =>
    (mirrorCoords mode w hgt m.x m.y).filterMap (fun p =>
      if p.1 < w ∧ p.2 < hgt then some ⟨p.1, p.2, m.old, m.new⟩ else none)))

/-- Re-read the `old` value of every mutation from the live grid
(src/app.rs lines 242-250): mutations whose coordinate is in range get their
`old` field replaced by the grid's current value there; out-of-range ones are
kept as given. -/
def resampleOld {Cell : Type} (g : Grid Cell) (ms : List (CellMutation Cell)) :
    List (CellMutation Cell) :=
  ms.map (fun m => match g.get m.x m.y with
    | some actual => { m with old := actual }
    | none => m)

/-- `tools::pencil` over the CLI canvas (src/tools.rs lines 67-85): one mutation
at the target coordinate when the new cell differs from the current one, else no
mutations.  The new cell, built in the source from the block character and
colors, is taken here as a value `nw`. -/
def pencil {Cell : Type} [DecidableEq Cell] (g : Grid Cell) (x y : Nat) (nw : Cell) :
    List (CellMutation Cell) :=
  match g.get x y with
  | some old => if old ≠ nw then [⟨x, y, old, nw⟩] else []
  | none => []

/-! The fixed 32×32 canvas of src/canvas.rs, used by src/tools.rs. -/

/-- Canvas width constant (src/canvas.rs, `CANVAS_WIDTH`). -/
def CANVAS_WIDTH : Nat := 32

/-- Canvas height constant (src/canvas.rs, `CANVAS_HEIGHT`). -/
def CANVAS_HEIGHT : Nat := 32

/-- The fixed-size canvas (src/canvas.rs, `Canvas`): a 32×32 cell array, embedded
as a function `cells y x` to match the row-major `cells[y][x]` indexing. -/
structure Canvas (Cell : Type) where
  cells : Nat → Nat → Cell

namespace Canvas

variable {Cell : Type}

/-- `Canvas::get` (src/canvas.rs lines 20-26): bounds-checked read. -/
def get (c : Canvas Cell) (x y : Nat) : Option Cell :=
  if x < CANVAS_WIDTH ∧ y < CANVAS_HEIGHT then some (c.cells y x) else none

/-- `Canvas::set` (src/canvas.rs lines 28-32): bounds-checked write, no-op out of
range. -/
def set (c : Canvas Cell) (x y : Nat) (v : Cell) : Canvas Cell :=
  if x < CANVAS_WIDTH ∧ y < CANVAS_HEIGHT then
    ⟨fun b a => if b = y ∧ a = x then v else c.cells b a⟩
  else c

end Canvas

/-- The in-range coordinates of the 32×32 canvas, used as the termination
measure domain for the flood-fill loop. -/
def validCoords : Finset (Nat × Nat) :=
  Finset.range 32 ×ˢ Finset.range 32

/-- The neighbor pushes of one flood-fill iteration (src/tools.rs lines
235-246): push left, right, up, down — guarded by the canvas edges — onto the
stack.  The stack is represented head-as-top, so the latest push is the head and
is popped first, exactly like `Vec::push` / `Vec::pop`. -/
def pushNeighbors (x y : Nat) (rest : List (Nat × Nat)) : List (Nat × Nat) :=
  let s₁ := if 0 < x then (x - 1, y) :: rest else rest
  let s₂ := if x < 31 then (x + 1, y) :: s₁ else s₁
  let s₃ := if 0 < y then (x, y - 1) :: s₂ else s₂
  if y < 31 then (x, y + 1) :: s₃ else s₃

/-- The iterative flood-fill loop (src/tools.rs lines 215-247): pop a coordinate;
skip it when out of range, already visited, or not matching the target; otherwise
mark it visited, emit a mutation `{old := target, new := nw}`, and push its four
neighbors.  The visited bitmap `[[bool; 32]; 32]` is embedded as a finite set of
coordinates. -/
def floodLoop {Cell : Type} [DecidableEq Cell] (c : Canvas Cell) (target nw : Cell)
    (visited : Finset (Nat × Nat)) (stack : List (Nat × Nat))
    (acc : List (CellMutation Cell)) : List (CellMutation Cell) :=
  match stack with
  | [] => acc
  | (x, y) :: rest =>
    if 32 ≤ x ∨ 32 ≤ y ∨ (x, y) ∈ visited then
      floodLoop c target nw visited rest acc
    else if c.get x y ≠ some target then
      floodLoop c target nw visited rest acc
    else
      floodLoop c target nw (insert (x, y) visited) (pushNeighbors x y rest)
        (acc ++ [⟨x, y, target, nw⟩])
termination_by ((validCoords \ visited).card, stack.length)
decreasing_by
  · apply Prod.Lex.right
    simp
  · apply Prod.Lex.right
    simp
  · apply Prod.Lex.left
    have hx : x < 32 ∧ y < 32 ∧ (x, y) ∉ visited := by
      constructor
      · omega
      constructor
      · omega
      · intro hmem
        exact (by assumption : ¬(32 ≤ x ∨ 32 ≤ y ∨ (x, y) ∈ visited)) (Or.inr (Or.inr hmem))
    have hmem : (x, y) ∈ validCoords \ visited := by
      simp [validCoords, Finset.mem_sdiff, Finset.mem_product, hx.1, hx.2.1, hx.2.2]
    rw [Finset.sdiff_insert]
    exact Finset.card_erase_lt_of_mem hmem

/-- `tools::flood_fill` (src/tools.rs lines 193-250): capture the seed cell as the
target; no-op when the seed is out of range or already equal to the replacement;
otherwise run the loop from the seed.  The replacement cell, built in the source
from the block character and colors, is taken here as a value `nw`. -/
def flood_fill {Cell : Type} [DecidableEq Cell] (c : Canvas Cell) (sx sy : Nat)
    (nw : Cell) : List (CellMutation Cell) :=
  match c.get sx sy with
  | none => []
  | some target =>
    if target = nw then []
    else floodLoop c target nw ∅ [(sx, sy)] []

/-- Two coordinates are 4-connected neighbors. -/
def Adjacent (p q : Nat × Nat) : Prop :=
  (p.1 = q.1 ∧ (p.2 = q.2 + 1 ∨ q.2 = p.2 + 1)) ∨
    (p.2 = q.2 ∧ (p.1 = q.1 + 1 ∨ q.1 = p.1 + 1))

/-- The coordinate `r` is 4-connected to `start` through cells matching `target`:
either it is the start itself, or it is a neighbor of a matching coordinate that
is itself reachable. -/
inductive Reaches {Cell : Type} (c : Canvas Cell) (target : Cell) (start : Nat × Nat) :
    Nat × Nat → Prop where
  | refl : Reaches c target start start
  | step {q r : Nat × Nat} : Reaches c target start q → c.get q.1 q.2 = some target →
      Adjacent q r → Reaches c target start r

/-- The loop of `tools::bresenham_line` (src/tools.rs lines 113-127), with the
loop state (current point and accumulated error) passed explicitly.  The loop
iterates exactly `max |dx| |dy| + 1` times (once per emitted point); `fuel`
bounds the recursion and is chosen in `bresenham_line` as `|dx| + |dy| + 1`,
which the completion lemma shows is never exhausted. -/
def bresenhamAux (x1 y1 dx dy sx sy : Int) : Nat → Int → Int → Int → List (Int × Int)
  | 0, _, _, _ => []
  | fuel + 1, x0, y0, err =>
    (x0, y0) :: (if x0 = x1 ∧ y0 = y1 then []
      else
        let e2 := 2 * err
        let err₁ := if e2 ≥ dy then err + dy else err
        let x0' := if e2 ≥ dy then x0 + sx else x0
        let err₂ := if e2 ≤ dx then err₁ + dx else err₁
        let y0' := if e2 ≤ dx then y0 + sy else y0
        bresenhamAux x1 y1 dx dy sx sy fuel x0' y0' err₂)

/-- `tools::bresenham_line` (src/tools.rs lines 102-130): set up `dx = |x1-x0|`,
`dy = -|y1-y0|`, the step signs and the initial error `dx + dy`, then run the
loop; every emitted point is cast back to `usize` (here `Int.toNat`; the emitted
points never leave the bounding box of the endpoints, so the cast is lossless). -/
def bresenham_line (x0 y0 x1 y1 : Nat) : List (Nat × Nat) :=
  let X0 : Int := (x0 : Int)
  let Y0 : Int := (y0 : Int)
  let X1 : Int := (x1 : Int)
  let Y1 : Int := (y1 : Int)
  let dx : Int := |X1 - X0|
  let dy : Int := -|Y1 - Y0|
  let sx : Int := if X0 < X1 then 1 else -1
  let sy : Int := if Y0 < Y1 then 1 else -1
  (bresenhamAux X1 Y1 dx dy sx sy ((dx - dy).toNat + 1) X0 Y0 (dx + dy)).map
    (fun p => (p.1.toNat, p.2.toNat))

/-! Theorems.  First the grid-level helper lemmas, then the per-claim results. -/

namespace Grid

variable {Cell : Type}

theorem PointEq.refl (g : Grid Cell) : g.PointEq g :=
  ⟨rfl, rfl, fun _ _ _ _ => rfl⟩

theorem PointEq.get_eq {g₁ g₂ : Grid Cell} (h : g₁.PointEq g₂) (x y : Nat) :
    g₁.get x y = g₂.get x y := by
  obtain ⟨hw, hh, hc⟩ := h
  by_cases hx : x < g₁.width ∧ y < g₁.height
  · exact hc x hx.1 y hx.2
  · unfold get
    rw [if_neg hx,
      if_neg (fun hcon => hx ⟨lt_of_lt_of_eq hcon.1 hw.symm, lt_of_lt_of_eq hcon.2 hh.symm⟩)]

theorem PointEq.symm {g₁ g₂ : Grid Cell} (h : g₁.PointEq g₂) : g₂.PointEq g₁ :=
  ⟨h.1.symm, h.2.1.symm, fun x _ y _ => (h.get_eq x y).symm⟩

theorem PointEq.trans {g₁ g₂ g₃ : Grid Cell} (h₁ : g₁.PointEq g₂) (h₂ : g₂.PointEq g₃) :
    g₁.PointEq g₃ :=
  ⟨h₁.1.trans h₂.1, h₁.2.1.trans h₂.2.1, fun x _ y _ =>
    (h₁.get_eq x y).trans (h₂.get_eq x y)⟩

theorem width_set (g : Grid Cell) (x y : Nat) (c : Cell) : (g.set x y c).width = g.width := by
  unfold set
  split <;> rfl

theorem height_set (g : Grid Cell) (x y : Nat) (c : Cell) : (g.set x y c).height = g.height := by
  unfold set
  split <;> rfl

theorem get_set_self {g : Grid Cell} {x y : Nat} (hx : x < g.width) (hy : y < g.height)
    (c : Cell) : (g.set x y c).get x y = some c := by
  simp [set, get, hx, hy]

theorem get_set_ne (g : Grid Cell) {x y a b : Nat} (hne : ¬(a = x ∧ b = y)) (c : Cell) :
    (g.set x y c).get a b = g.get a b := by
  by_cases hin : x < g.width ∧ y < g.height
  · simp only [set, if_pos hin, get]
    rw [if_neg hne]
  · simp [set, hin]

theorem get_set_oob {g : Grid Cell} {x y : Nat} (hx : ¬(x < g.width ∧ y < g.height))
    (c : Cell) (a b : Nat) : (g.set x y c).get a b = g.get a b := by
  unfold set
  rw [if_neg hx]

theorem get_oob {g : Grid Cell} {x y : Nat} (hx : ¬(x < g.width ∧ y < g.height)) :
    g.get x y = none := by
  simp [get, hx]

/-- Writing back the value a cell already holds changes nothing, cell-for-cell. -/
theorem set_get_pointEq {g : Grid Cell} {x y : Nat} {c : Cell} (h : g.get x y = some c) :
    (g.set x y c).PointEq g := by
  have hin : x < g.width ∧ y < g.height := by
    by_contra hc
    simp [get, hc] at h
  have hval : g.cells x y = c := by
    simp [get, hin] at h
    exact h
  refine ⟨width_set .., height_set .., fun a _ b _ => ?_⟩
  by_cases hab : a = x ∧ b = y
  · obtain ⟨rfl, rfl⟩ := hab
    rw [get_set_self hin.1 hin.2]
    simp [get, hin, hval]
  · exact get_set_ne g hab c

/-- Point equality is preserved by a write at the same coordinate. -/
theorem set_congr {g₁ g₂ : Grid Cell} (h : g₁.PointEq g₂) (x y : Nat) (c : Cell) :
    (g₁.set x y c).PointEq (g₂.set x y c) := by
  by_cases hin : x < g₁.width ∧ y < g₁.height
  · refine ⟨by rw [width_set, width_set, h.1], by rw [height_set, height_set, h.2.1],
      fun a _ b _ => ?_⟩
    by_cases hab : a = x ∧ b = y
    · obtain ⟨rfl, rfl⟩ := hab
      rw [get_set_self hin.1 hin.2,
        get_set_self (lt_of_lt_of_eq hin.1 h.1) (lt_of_lt_of_eq hin.2 h.2.1)]
    · rw [get_set_ne g₁ hab, get_set_ne g₂ hab]
      exact h.get_eq a b
  · have hin₂ : ¬(x < g₂.width ∧ y < g₂.height) := by rw [← h.1, ← h.2.1]; exact hin
    refine ⟨by rw [width_set, width_set, h.1], by rw [height_set, height_set, h.2.1],
      fun a _ b _ => ?_⟩
    rw [get_set_oob hin, get_set_oob hin₂]
    exact h.get_eq a b

/-- An overwritten write is invisible, cell-for-cell. -/
theorem set_set_pointEq (g : Grid Cell) (x y : Nat) (c₁ c₂ : Cell) :
    ((g.set x y c₁).set x y c₂).PointEq (g.set x y c₂) := by
  by_cases hin : x < g.width ∧ y < g.height
  · have hin₁ : x < (g.set x y c₁).width ∧ y < (g.set x y c₁).height := by
      rw [width_set, height_set]
      exact hin
    refine ⟨by rw [width_set, width_set, width_set], by rw [height_set, height_set, height_set],
      fun a _ b _ => ?_⟩
    by_cases hab : a = x ∧ b = y
    · obtain ⟨rfl, rfl⟩ := hab
      rw [get_set_self hin₁.1 hin₁.2, get_set_self hin.1 hin.2]
    · rw [get_set_ne _ hab, get_set_ne _ hab, get_set_ne _ hab]
  · have h₁ : g.set x y c₁ = g := by unfold set; rw [if_neg hin]
    rw [h₁]
    exact PointEq.refl _

end Grid

theorem applyWith_nil {Cell : Type} (f : CellMutation Cell → Cell) (g : Grid Cell) :
    applyWith f g [] = g :=
  rfl

theorem applyWith_cons {Cell : Type} (f : CellMutation Cell → Cell) (g : Grid Cell)
    (m : CellMutation Cell) (ms : List (CellMutation Cell)) :
    applyWith f g (m :: ms) = applyWith f (g.set m.x m.y (f m)) ms :=
  rfl

theorem applyWith_append {Cell : Type} (f : CellMutation Cell → Cell) (g : Grid Cell)
    (l₁ l₂ : List (CellMutation Cell)) :
    applyWith f g (l₁ ++ l₂) = applyWith f (applyWith f g l₁) l₂ := by
  simp [applyWith, List.foldl_append]

theorem applyWith_width {Cell : Type} (f : CellMutation Cell → Cell) (g : Grid Cell)
    (ms : List (CellMutation Cell)) : (applyWith f g ms).width = g.width := by
  induction ms generalizing g with
  | nil => rfl
  | cons m rest ih => rw [applyWith_cons, ih, Grid.width_set]

theorem applyWith_height {Cell : Type} (f : CellMutation Cell → Cell) (g : Grid Cell)
    (ms : List (CellMutation Cell)) : (applyWith f g ms).height = g.height := by
  induction ms generalizing g with
  | nil => rfl
  | cons m rest ih => rw [applyWith_cons, ih, Grid.height_set]

/-- A coordinate touched by none of the mutations keeps its value under the
fold. -/
theorem applyWith_get_notMem {Cell : Type} (f : CellMutation Cell → Cell) {g : Grid Cell}
    {ms : List (CellMutation Cell)} {a b : Nat}
    (h : ∀ m ∈ ms, ¬(a = m.x ∧ b = m.y)) :
    (applyWith f g ms).get a b = g.get a b := by
  induction ms generalizing g with
  | nil => rfl
  | cons m rest ih =>
    rw [applyWith_cons, ih (fun m hm => h m (List.mem_cons_of_mem _ hm)),
      Grid.get_set_ne _ (h m (List.mem_cons_self _ _))]

/-- The fold respects cell-for-cell equality of the starting grids. -/
theorem applyWith_congr {Cell : Type} (f : CellMutation Cell → Cell) {g₁ g₂ : Grid Cell}
    (h : g₁.PointEq g₂) (ms : List (CellMutation Cell)) :
    (applyWith f g₁ ms).PointEq (applyWith f g₂ ms) := by
  induction ms generalizing g₁ g₂ with
  | nil => exact h
  | cons m rest ih =>
    rw [applyWith_cons, applyWith_cons]
    exact ih (Grid.set_congr h m.x m.y (f m))

/-- The fold only looks at the starting grids outside the mutated coordinates:
if two equal-sized grids agree off the mutation list's coordinates, the folds
agree cell-for-cell everywhere. -/
theorem applyWith_congr_off {Cell : Type} (f : CellMutation Cell → Cell) {g₁ g₂ : Grid Cell}
    (hw : g₁.width = g₂.width) (hh : g₁.height = g₂.height)
    (ms : List (CellMutation Cell))
    (hoff : ∀ a b, (∀ m ∈ ms, ¬(a = m.x ∧ b = m.y)) → g₁.get a b = g₂.get a b) :
    (applyWith f g₁ ms).PointEq (applyWith f g₂ ms) := by
  induction ms generalizing g₁ g₂ with
  | nil =>
    exact ⟨hw, hh, fun a ha b hb => hoff a b (fun m hm => absurd hm (List.not_mem_nil m))⟩
  | cons m rest ih =>
    rw [applyWith_cons, applyWith_cons]
    refine ih (by rw [Grid.width_set, Grid.width_set, hw])
      (by rw [Grid.height_set, Grid.height_set, hh]) (fun a b hab => ?_)
    by_cases hm : a = m.x ∧ b = m.y
    · obtain ⟨rfl, rfl⟩ := hm
      by_cases hin : m.x < g₁.width ∧ m.y < g₁.height
      · rw [Grid.get_set_self hin.1 hin.2, Grid.get_set_self (hw ▸ hin.1) (hh ▸ hin.2)]
      · have hin₂ : ¬(m.x < g₂.width ∧ m.y < g₂.height) := by rw [← hw, ← hh]; exact hin
        rw [Grid.get_set_oob hin, Grid.get_set_oob hin₂, Grid.get_oob hin, Grid.get_oob hin₂]
    · rw [Grid.get_set_ne _ hm, Grid.get_set_ne _ hm]
      exact hoff a b (fun m' hm' => by
        rcases List.mem_cons.mp hm' with h' | h'
        · exact h' ▸ hm
        · exact hab m' h')

theorem applyActionOld_cellChange {Cell : Type} (g : Grid Cell)
    (ms : List (CellMutation Cell)) :
    History.applyActionOld g (.cellChange ms) = applyWith (fun m => m.old) g ms.reverse :=
  rfl

theorem applyActionNew_cellChange {Cell : Type} (g : Grid Cell)
    (ms : List (CellMutation Cell)) :
    History.applyActionNew g (.cellChange ms) = applyWith (fun m => m.new) g ms :=
  rfl

/-- Undoing an action respects cell-for-cell equality of the grids. -/
theorem applyActionOld_congr {Cell : Type} {g₁ g₂ : Grid Cell} (h : g₁.PointEq g₂)
    (a : Action Cell) :
    (History.applyActionOld g₁ a).PointEq (History.applyActionOld g₂ a) := by
  cases a with
  | cellChange ms =>
    rw [applyActionOld_cellChange, applyActionOld_cellChange]
    exact applyWith_congr _ h _
  | canvasSnapshot oc ow oh nc nw nh => exact Grid.PointEq.refl _

/-- Exhausting a stack of undos respects cell-for-cell equality of the grids. -/
theorem undoStackAll_congr {Cell : Type} {g₁ g₂ : Grid Cell} (h : g₁.PointEq g₂)
    (s : List (Action Cell)) : (undoStackAll g₁ s).PointEq (undoStackAll g₂ s) := by
  induction s generalizing g₁ g₂ with
  | nil => exact h
  | cons a rest ih => exact ih (applyActionOld_congr h a)

/-- Inversion of one correctly recorded mutation list: applying the list's `new`
values in forward order and then its `old` values in reverse order restores the
grid cell-for-cell. -/
theorem undo_recorded {Cell : Type} [DecidableEq Cell] {g : Grid Cell}
    {ms : List (CellMutation Cell)} (h : recordedB g ms = true) :
    (applyWith (fun m => m.old) (applyMutations g ms) ms.reverse).PointEq g := by
  induction ms generalizing g with
  | nil => exact Grid.PointEq.refl g
  | cons m rest ih =>
    rw [recordedB, Bool.and_eq_true, beq_iff_eq] at h
    obtain ⟨hget, hrest⟩ := h
    have hstep : applyMutations g (m :: rest) = applyMutations (g.set m.x m.y m.new) rest :=
      rfl
    rw [hstep, List.reverse_cons, applyWith_append]
    refine ((Grid.set_congr (ih hrest) m.x m.y m.old).trans ?_)
    exact (Grid.set_set_pointEq g m.x m.y m.new m.old).trans (Grid.set_get_pointEq hget)

/-- Unwinding lemma for committed sequences: as long as the undo stack never
exceeds the cap, exhausting the stack after applying and committing a correctly
recorded sequence yields the same grid, cell-for-cell, as exhausting the
original stack. -/
theorem undoAll_commitAll {Cell : Type} [DecidableEq Cell]
    (as : List (List (CellMutation Cell))) (h : History Cell) (g : Grid Cell)
    (hrec : recordedSeqB g as = true)
    (hcap : h.undo_stack.length + as.countP (fun ms => !ms.isEmpty) ≤ MAX_HISTORY) :
    (undoAll (commitAll h g as).1 (commitAll h g as).2).PointEq (undoAll h g) := by
  induction as generalizing h g with
  | nil => exact Grid.PointEq.refl _
  | cons ms rest ih =>
    rw [recordedSeqB, Bool.and_eq_true] at hrec
    obtain ⟨hr₁, hr₂⟩ := hrec
    have hstep : commitAll h g (ms :: rest) =
        commitAll (h.commit (.cellChange ms)) (applyMutations g ms) rest := rfl
    rw [hstep]
    cases ms with
    | nil =>
      have hcommit : h.commit (.cellChange ([] : List (CellMutation Cell))) = h := rfl
      have happ : applyMutations g ([] : List (CellMutation Cell)) = g := rfl
      rw [hcommit, happ]
      refine ih h g hr₂ ?_
      simpa using hcap
    | cons m ms' =>
      have hcount : (List.cons (m :: ms') rest).countP (fun ms => !ms.isEmpty) =
          rest.countP (fun ms => !ms.isEmpty) + 1 := by
        rw [List.countP_cons]
        simp
      have hlen : (h.commit (.cellChange (m :: ms'))).undo_stack =
          Action.cellChange (m :: ms') :: h.undo_stack := by
        unfold History.commit
        simp only
        rw [if_neg ?hng]
        case hng =>
          simp only [List.length_cons, gt_iff_lt, not_lt]
          omega
      refine ((ih _ _ hr₂ ?_).trans ?_)
      · rw [hlen]
        simp only [List.length_cons]
        omega
      · show (undoAll (h.commit (.cellChange (m :: ms'))) (applyMutations g (m :: ms'))).PointEq _
        rw [undoAll, hlen]
        show (undoStackAll
          (History.applyActionOld (applyMutations g (m :: ms')) (.cellChange (m :: ms')))
          h.undo_stack).PointEq _
        rw [applyActionOld_cellChange]
        exact undoStackAll_congr (undo_recorded hr₁) h.undo_stack

theorem take_append_take {α : Type} (l₁ l₂ : List α) (k : Nat) :
    (l₁ ++ l₂.take k).take k = (l₁ ++ l₂).take k := by
  rw [List.take_append_eq_append_take, List.take_append_eq_append_take, List.take_take]
  congr 1
  rw [Nat.min_eq_left (Nat.sub_le k l₁.length)]

/-- A non-empty commit pushes onto the undo stack and truncates it to the cap:
`remove(0)` on a stack of length `MAX_HISTORY + 1` keeps exactly the newest
`MAX_HISTORY` actions. -/
theorem commit_undo_stack {Cell : Type} (h : History Cell) (a : Action Cell)
    (ha : a.nonEmpty = true) (hlen : h.undo_stack.length ≤ MAX_HISTORY) :
    (h.commit a).undo_stack = (a :: h.undo_stack).take MAX_HISTORY := by
  have key : ∀ stack : List (Action Cell), stack.length ≤ MAX_HISTORY →
      (if (a :: stack).length > MAX_HISTORY then (a :: stack).dropLast else a :: stack) =
        (a :: stack).take MAX_HISTORY := by
    intro stack hs
    by_cases hgt : (a :: stack).length > MAX_HISTORY
    · rw [if_pos hgt, List.dropLast_eq_take]
      congr 1
      simp only [List.length_cons] at hgt ⊢
      omega
    · rw [if_neg hgt, List.take_of_length_le]
      omega
  cases a with
  | cellChange ms =>
    cases ms with
    | nil => simp [Action.nonEmpty] at ha
    | cons m rest => exact key h.undo_stack hlen
  | canvasSnapshot oc ow oh nc nw nh => exact key h.undo_stack hlen

/-- The undo stack after committing a sequence of non-empty `CellChange`
actions: the newest `MAX_HISTORY` of the committed actions (newest first) on top
of the prior stack, truncated to the cap. -/
theorem commitAll_undo_stack {Cell : Type} (as : List (List (CellMutation Cell)))
    (h : History Cell) (g : Grid Cell) (hall : ∀ ms ∈ as, ms ≠ [])
    (hlen : h.undo_stack.length ≤ MAX_HISTORY) :
    (commitAll h g as).1.undo_stack =
      (as.reverse.map Action.cellChange ++ h.undo_stack).take MAX_HISTORY := by
  induction as generalizing h g with
  | nil =>
    simp only [commitAll, List.foldl_nil, List.reverse_nil, List.map_nil, List.nil_append]
    rw [List.take_of_length_le hlen]
  | cons ms rest ih =>
    have hne : (Action.cellChange ms).nonEmpty = true := by
      cases ms with
      | nil => exact absurd rfl (hall [] (List.mem_cons_self _ _))
      | cons m ms' => rfl
    have hstep : commitAll h g (ms :: rest) =
        commitAll (h.commit (.cellChange ms)) (applyMutations g ms) rest := rfl
    rw [hstep, ih _ _ (fun l hl => hall l (List.mem_cons_of_mem _ hl))
        (by rw [commit_undo_stack h _ hne hlen]; exact List.length_take_le _ _),
      commit_undo_stack h _ hne hlen, List.reverse_cons, List.map_append]
    simp only [List.map_cons, List.map_nil, List.append_assoc, List.singleton_append]
    exact take_append_take _ _ _

/-- The grid side of `commitAll` is just the fold of the mutation lists. -/
theorem commitAll_snd {Cell : Type} (as : List (List (CellMutation Cell)))
    (h : History Cell) (g : Grid Cell) :
    (commitAll h g as).2 = as.foldl applyMutations g := by
  induction as generalizing h g with
  | nil => rfl
  | cons ms rest ih => exact ih _ _

theorem foldl_applyMutations_width {Cell : Type} (as : List (List (CellMutation Cell)))
    (g : Grid Cell) : (as.foldl applyMutations g).width = g.width := by
  induction as generalizing g with
  | nil => rfl
  | cons ms rest ih => rw [List.foldl_cons, ih, applyMutations, applyWith_width]

theorem foldl_applyMutations_height {Cell : Type} (as : List (List (CellMutation Cell)))
    (g : Grid Cell) : (as.foldl applyMutations g).height = g.height := by
  induction as generalizing g with
  | nil => rfl
  | cons ms rest ih => rw [List.foldl_cons, ih, applyMutations, applyWith_height]

/-- C1 (amended): for every canvas and every sequence of at most `MAX_HISTORY`
(256) `CellChange` actions whose mutations record as `old` the live canvas value
at their coordinate at the moment of application, applying each action's `new`
values to the canvas and committing the action to a fresh in-memory history,
then undoing until the undo stack is empty — each undo re-applying the `old`
values in reverse list order — restores every cell of the canvas to its original
value.  The bound is forced by the history cap: beyond 256 committed actions the
oldest are evicted and can no longer be undone. -/
theorem C1_inversion_law {Cell : Type} [DecidableEq Cell] (g : Grid Cell)
    (as : List (List (CellMutation Cell))) (hrec : recordedSeqB g as = true)
    (hlen : as.length ≤ MAX_HISTORY) :
    (undoAll (commitAll History.new g as).1 (commitAll History.new g as).2).PointEq g := by
  have hcap : (History.new : History Cell).undo_stack.length +
      as.countP (fun ms => !ms.isEmpty) ≤ MAX_HISTORY := by
    have : as.countP (fun ms => !ms.isEmpty) ≤ as.length := List.countP_le_length _
    simpa [History.new] using le_trans this hlen
  exact undoAll_commitAll as History.new g hrec hcap

/-- Witness for C1: a concrete one-action run on a 1×1 canvas, undone back to
the all-zero grid. -/
theorem C1_inversion_law_witness :
    recordedSeqB (Grid.mk 1 1 (fun _ _ => 0)) [[CellMutation.mk 0 0 0 1]] = true ∧
    [[CellMutation.mk 0 0 0 1]].length ≤ MAX_HISTORY ∧
    (undoAll (commitAll History.new (Grid.mk 1 1 (fun _ _ => 0)) [[CellMutation.mk 0 0 0 1]]).1
        (commitAll History.new (Grid.mk 1 1 (fun _ _ => 0)) [[CellMutation.mk 0 0 0 1]]).2).PointEq
      (Grid.mk 1 1 (fun _ _ => 0)) :=
  ⟨by decide, by decide,
    C1_inversion_law (Grid.mk 1 1 (fun _ _ => 0)) [[CellMutation.mk 0 0 0 1]]
      (by decide) (by decide)⟩

theorem recordedSeqB_replicate_triv (n : Nat) (g : Grid Nat) (hw : g.width = 1)
    (hh : g.height = 1) (hget : g.get 0 0 = some 1) :
    recordedSeqB g (List.replicate n [CellMutation.mk 0 0 1 1]) = true := by
  induction n generalizing g with
  | zero => rfl
  | succ k ih =>
    rw [List.replicate_succ, recordedSeqB, Bool.and_eq_true]
    refine ⟨by rw [recordedB, recordedB, Bool.and_eq_true, beq_iff_eq]; exact ⟨hget, rfl⟩, ?_⟩
    have hset : applyMutations g [CellMutation.mk 0 0 1 1] = g.set 0 0 1 := rfl
    rw [hset]
    exact ih _ (by rw [Grid.width_set, hw]) (by rw [Grid.height_set, hh])
      (Grid.get_set_self (by omega) (by omega) 1)

theorem undoStackAll_replicate_triv (n : Nat) (g : Grid Nat) (hw : g.width = 1)
    (hh : g.height = 1) :
    (undoStackAll g
      (List.replicate (n + 1) (Action.cellChange [CellMutation.mk 0 0 1 1]))).get 0 0 =
      some 1 := by
  induction n generalizing g with
  | zero =>
    show (g.set 0 0 1).get 0 0 = some 1
    exact Grid.get_set_self (by omega) (by omega) 1
  | succ k ih =>
    rw [List.replicate_succ]
    show (undoStackAll (g.set 0 0 1)
      (List.replicate (k + 1) (Action.cellChange [CellMutation.mk 0 0 1 1]))).get 0 0 = some 1
    exact ih _ (by rw [Grid.width_set, hw]) (by rw [Grid.height_set, hh])

/-- Counterexample to C1 as stated: on a 1×1 zero canvas, a correctly recorded
sequence of 257 actions (one real change from 0 to 1, then 256 trivial re-writes
of 1) exceeds the history cap; the first action is evicted, so exhausting the
undo stack leaves the cell at 1, not its original 0. -/
theorem C1_inversion_law_cap_counterexample :
    recordedSeqB (Grid.mk 1 1 (fun _ _ => 0))
        ([CellMutation.mk 0 0 0 1] :: List.replicate 256 [CellMutation.mk 0 0 1 1]) = true ∧
    ¬ (undoAll
        (commitAll History.new (Grid.mk 1 1 (fun _ _ => 0))
          ([CellMutation.mk 0 0 0 1] :: List.replicate 256 [CellMutation.mk 0 0 1 1])).1
        (commitAll History.new (Grid.mk 1 1 (fun _ _ => 0))
          ([CellMutation.mk 0 0 0 1] :: List.replicate 256 [CellMutation.mk 0 0 1 1])).2).PointEq
      (Grid.mk 1 1 (fun _ _ => 0)) := by
  constructor
  · rw [recordedSeqB, Bool.and_eq_true]
    refine ⟨by decide, ?_⟩
    exact recordedSeqB_replicate_triv 256 _ (by decide) (by decide) (by decide)
  · intro hpe
    have hstack : (commitAll History.new (Grid.mk 1 1 (fun _ _ => 0))
        ([CellMutation.mk 0 0 0 1] :: List.replicate 256 [CellMutation.mk 0 0 1 1])).1.undo_stack =
        List.replicate 256 (Action.cellChange [CellMutation.mk 0 0 1 1]) := by
      rw [commitAll_undo_stack _ _ _ ?hall (by decide)]
      case hall =>
        intro ms hms
        rcases List.mem_cons.mp hms with h' | h'
        · rw [h']
          decide
        · rw [List.eq_of_mem_replicate h']
          decide
      rw [List.reverse_cons, List.reverse_replicate, List.map_append, List.map_replicate]
      show (List.replicate 256 (Action.cellChange [CellMutation.mk 0 0 1 1]) ++
        [Action.cellChange [CellMutation.mk 0 0 0 1]] ++ []).take MAX_HISTORY = _
      rw [List.append_nil]
      have h256 : MAX_HISTORY =
          (List.replicate 256 (Action.cellChange [CellMutation.mk 0 0 1 1])).length := by
        rw [List.length_replicate]
        rfl
      rw [h256, List.take_left]
    have hw : (commitAll History.new (Grid.mk 1 1 (fun _ _ => 0))
        ([CellMutation.mk 0 0 0 1] :: List.replicate 256 [CellMutation.mk 0 0 1 1])).2.width = 1 := by
      rw [commitAll_snd, foldl_applyMutations_width]
    have hh : (commitAll History.new (Grid.mk 1 1 (fun _ _ => 0))
        ([CellMutation.mk 0 0 0 1] :: List.replicate 256 [CellMutation.mk 0 0 1 1])).2.height = 1 := by
      rw [commitAll_snd, foldl_applyMutations_height]
    have hget : (undoAll
        (commitAll History.new (Grid.mk 1 1 (fun _ _ => 0))
          ([CellMutation.mk 0 0 0 1] :: List.replicate 256 [CellMutation.mk 0 0 1 1])).1
        (commitAll History.new (Grid.mk 1 1 (fun _ _ => 0))
          ([CellMutation.mk 0 0 0 1] :: List.replicate 256 [CellMutation.mk 0 0 1 1])).2).get 0 0 =
        some 1 := by
      rw [undoAll, hstack]
      exact undoStackAll_replicate_triv 255 _ hw hh
    have := hpe.get_eq 0 0
    rw [hget] at this
    exact absurd this (by decide)

/-- Re-applying an action's `new` side erases whatever its `old` side wrote:
the redo application only reads the grid outside the action's coordinates, and
the undo application only writes inside them. -/
theorem redo_after_undo {Cell : Type} (g : Grid Cell) (a : Action Cell) :
    (History.applyActionNew (History.applyActionOld g a) a).PointEq
      (History.applyActionNew g a) := by
  cases a with
  | cellChange ms =>
    rw [applyActionNew_cellChange, applyActionNew_cellChange, applyActionOld_cellChange]
    refine applyWith_congr_off _ (by rw [applyWith_width]) (by rw [applyWith_height]) ms
      (fun a b hab => ?_)
    exact applyWith_get_notMem _ (fun m hm => hab m (List.mem_reverse.mp hm))
  | canvasSnapshot oc ow oh nc nw nh => exact Grid.PointEq.refl _

/-- C2 (amended): for every canvas state that still reflects the stack-top
action's `new` state (re-applying the action's `new` values or new snapshot
changes no cell — as holds immediately after that action was committed or
redone), `History::undo` followed by `History::redo` succeeds, restores the
canvas cell-for-cell to its pre-undo state, and returns the history — including
the undo stack with the action back on top — to exactly its original value.
Without that proviso the round trip rewrites the mutated coordinates to the
action's `new` values, which need not match an arbitrary canvas. -/
theorem C2_undo_redo_roundtrip {Cell : Type} (h : History Cell) (g : Grid Cell)
    (a : Action Cell) (rest : List (Action Cell)) (hstack : h.undo_stack = a :: rest)
    (hpost : (History.applyActionNew g a).PointEq g) :
    (h.undoStep g).2.2 = true ∧
    ((h.undoStep g).1.redoStep (h.undoStep g).2.1).1 = h ∧
    ((h.undoStep g).1.redoStep (h.undoStep g).2.1).2.2 = true ∧
    ((h.undoStep g).1.redoStep (h.undoStep g).2.1).2.1.PointEq g := by
  obtain ⟨us, rs, pend⟩ := h
  simp only at hstack
  subst hstack
  refine ⟨rfl, rfl, rfl, ?_⟩
  show (History.applyActionNew (History.applyActionOld g a) a).PointEq g
  exact (redo_after_undo g a).trans hpost

/-- Witness for C2: a 1×1 canvas holding 2, with a committed mutation 1 ↦ 2 on
top of the undo stack; undo then redo restores the canvas and the history. -/
theorem C2_undo_redo_roundtrip_witness :
    ((History.mk [Action.cellChange [CellMutation.mk 0 0 1 2]] [] none).undo_stack =
      Action.cellChange [CellMutation.mk 0 0 1 2] :: []) ∧
    (History.applyActionNew (Grid.mk 1 1 (fun _ _ => 2))
      (Action.cellChange [CellMutation.mk 0 0 1 2])).PointEq (Grid.mk 1 1 (fun _ _ => 2)) ∧
    (((History.mk [Action.cellChange [CellMutation.mk 0 0 1 2]] [] none).undoStep
        (Grid.mk 1 1 (fun _ _ => 2))).1.redoStep
      ((History.mk [Action.cellChange [CellMutation.mk 0 0 1 2]] [] none).undoStep
        (Grid.mk 1 1 (fun _ _ => 2))).2.1).2.1.PointEq (Grid.mk 1 1 (fun _ _ => 2)) :=
  ⟨rfl, by decide,
    (C2_undo_redo_roundtrip (History.mk [Action.cellChange [CellMutation.mk 0 0 1 2]] [] none)
      (Grid.mk 1 1 (fun _ _ => 2)) (Action.cellChange [CellMutation.mk 0 0 1 2]) [] rfl
      (by decide)).2.2.2⟩

/-- Counterexample to C2 as stated: on a 1×1 canvas holding 5 with a stack-top
action recording 1 ↦ 2 (an action whose `new` state the canvas does not
reflect), undo then redo leaves the cell at 2, not at its pre-undo value 5. -/
theorem C2_undo_redo_counterexample :
    ¬ (((History.mk [Action.cellChange [CellMutation.mk 0 0 1 2]] [] none).undoStep
          (Grid.mk 1 1 (fun _ _ => 5))).1.redoStep
        ((History.mk [Action.cellChange [CellMutation.mk 0 0 1 2]] [] none).undoStep
          (Grid.mk 1 1 (fun _ _ => 5))).2.1).2.1.PointEq (Grid.mk 1 1 (fun _ _ => 5)) := by
  decide

/-- C3: committing any non-empty action empties the redo stack — `can_redo`
becomes false and `History::redo` is a no-op returning failure — and, on the
persistent side, appending any entry to any log state leaves pointer = total, so
a subsequent `push_for_redo` returns the nothing-to-redo error. -/
theorem C3_redo_clear {Cell : Type} (h : History Cell) (g : Grid Cell) (a : Action Cell)
    (ha : a.nonEmpty = true) (s : LogState Cell) (e : LogEntry Cell) (count : Nat) :
    (h.commit a).redo_stack = [] ∧ (h.commit a).canRedo = false ∧
    (h.commit a).redoStep g = (h.commit a, g, false) ∧
    Oplog.pushForRedo (Oplog.append s e) count = Except.error "Nothing to redo" := by
  have hlog : Oplog.pushForRedo (Oplog.append s e) count =
      Except.error "Nothing to redo" := by
    simp [Oplog.append, Oplog.pushForRedo]
  cases a with
  | cellChange ms =>
    cases ms with
    | nil => simp [Action.nonEmpty] at ha
    | cons m rest => exact ⟨rfl, rfl, rfl, hlog⟩
  | canvasSnapshot oc ow oh nc nw nh => exact ⟨rfl, rfl, rfl, hlog⟩

/-- Witness for C3: a concrete non-empty commit on a fresh history and a
concrete append to the empty log. -/
theorem C3_redo_clear_witness :
    (Action.cellChange [CellMutation.mk 0 0 0 1]).nonEmpty = true ∧
    ((History.new : History Nat).commit
        (Action.cellChange [CellMutation.mk 0 0 0 1])).redo_stack = [] ∧
    Oplog.pushForRedo
        (Oplog.append (Oplog.initLog : LogState Nat) (LogEntry.mk "t0" "pencil" [])) 1 =
      Except.error "Nothing to redo" :=
  ⟨by decide,
    (C3_redo_clear History.new (Grid.mk 1 1 (fun _ _ => 0))
      (Action.cellChange [CellMutation.mk 0 0 0 1]) (by decide)
      Oplog.initLog (LogEntry.mk "t0" "pencil" []) 1).1,
    (C3_redo_clear History.new (Grid.mk 1 1 (fun _ _ => 0))
      (Action.cellChange [CellMutation.mk 0 0 0 1]) (by decide)
      Oplog.initLog (LogEntry.mk "t0" "pencil" []) 1).2.2.2⟩

theorem get_some_bounds {Cell : Type} {g : Grid Cell} {x y : Nat} {c : Cell}
    (h : g.get x y = some c) : x < g.width ∧ y < g.height := by
  by_contra hc
  rw [Grid.get_oob hc] at h
  exact Option.noConfusion h

/-- C4: when the symmetry-expanded mutation list has every mutation's `old`
field re-sampled from the live grid at that mutation's own coordinate — as
`App::apply_tool` does before applying anything — every mutation in the list
satisfies the inversion invariant: applying its `new` value to the grid and then
its `old` value returns that cell to its exact prior state, including at
mirrored coordinates whose prior value differs from the origin cell's. -/
theorem C4_resample_inversion {Cell : Type} (g : Grid Cell)
    (ms : List (CellMutation Cell)) (mode : SymmetryMode) (w hgt : Nat)
    (m : CellMutation Cell) (hm : m ∈ resampleOld g (applySymmetry ms mode w hgt)) :
    ((g.set m.x m.y m.new).set m.x m.y m.old).get m.x m.y = g.get m.x m.y := by
  obtain ⟨m₀, _, heq⟩ := List.mem_map.mp hm
  rcases hget : g.get m₀.x m₀.y with _ | actual
  · rw [hget] at heq
    subst heq
    have hoob : ¬(m₀.x < g.width ∧ m₀.y < g.height) := by
      intro hin
      rw [Grid.get, if_pos hin] at hget
      exact Option.noConfusion hget
    rw [Grid.get_set_oob (by rwa [Grid.width_set, Grid.height_set]),
      Grid.get_set_oob hoob]
  · rw [hget] at heq
    subst heq
    have hin := get_some_bounds hget
    have hin' : m₀.x < (g.set m₀.x m₀.y m₀.new).width ∧
        m₀.y < (g.set m₀.x m₀.y m₀.new).height := by
      rw [Grid.width_set, Grid.height_set]
      exact hin
    simp only
    rw [Grid.get_set_self hin'.1 hin'.2, hget]

/-- Witness for C4: on a 2×1 grid whose two cells differ (value 0 at x = 0,
value 1 at x = 1), a pencil-style mutation at the origin expanded with
horizontal symmetry; the mirrored mutation at (1,0) is re-sampled to `old = 1`
and inverts correctly. -/
theorem C4_resample_inversion_witness :
    (CellMutation.mk 1 0 1 7 ∈
      resampleOld (Grid.mk 2 1 (fun x _ => x))
        (applySymmetry [CellMutation.mk 0 0 0 7] SymmetryMode.horizontal 2 1)) ∧
    (((Grid.mk 2 1 (fun x _ => x)).set 1 0 7).set 1 0 1).get 1 0 =
      (Grid.mk 2 1 (fun x _ => x)).get 1 0 :=
  ⟨by decide,
    C4_resample_inversion (Grid.mk 2 1 (fun x _ => x)) [CellMutation.mk 0 0 0 7]
      SymmetryMode.horizontal 2 1 (CellMutation.mk 1 0 1 7) (by decide)⟩

/-- C5: on a well-formed log state, `pop_for_undo(count)` fails exactly when the
pointer is 0 and otherwise moves the pointer back by `min count pointer`;
`push_for_redo(count)` fails exactly when the pointer already equals the number
of entries and otherwise moves the pointer forward by
`min count (total - pointer)`; neither operation changes the entry list, and the
resulting pointer always stays within `[0, total]`. -/
theorem C5_log_pointer_bounds {Cell : Type} (s : LogState Cell) (count : Nat)
    (hwf : Oplog.Wf s) :
    ((∃ msg, Oplog.popForUndo s count = .error msg) ↔ s.header.pointer = 0) ∧
    (∀ s' out, Oplog.popForUndo s count = .ok (s', out) →
      s'.header.pointer = s.header.pointer - min count s.header.pointer ∧
      s'.entries = s.entries ∧ s'.header.total = s.header.total ∧
      s'.header.pointer ≤ s'.header.total) ∧
    ((∃ msg, Oplog.pushForRedo s count = .error msg) ↔
      s.header.pointer = s.entries.length) ∧
    (∀ s' out, Oplog.pushForRedo s count = .ok (s', out) →
      s'.header.pointer = s.header.pointer + min count (s.header.total - s.header.pointer) ∧
      s'.entries = s.entries ∧ s'.header.total = s.header.total ∧
      s'.header.pointer ≤ s'.header.total) := by
  obtain ⟨hp, ht⟩ := hwf
  refine ⟨?_, ?_, ?_, ?_⟩
  · constructor
    · rintro ⟨msg, hmsg⟩
      by_contra hp0
      rw [Oplog.popForUndo, if_neg hp0] at hmsg
      exact Except.noConfusion hmsg
    · intro hp0
      exact ⟨"Nothing to undo", by rw [Oplog.popForUndo, if_pos hp0]⟩
  · intro s' out hok
    by_cases hp0 : s.header.pointer = 0
    · rw [Oplog.popForUndo, if_pos hp0] at hok
      exact Except.noConfusion hok
    · rw [Oplog.popForUndo, if_neg hp0] at hok
      simp only [Except.ok.injEq, Prod.mk.injEq] at hok
      obtain ⟨rfl, rfl⟩ := hok
      refine ⟨rfl, rfl, ?_, ?_⟩
      · show s.entries.length = s.header.total
        omega
      · show s.header.pointer - min count s.header.pointer ≤ s.entries.length
        omega
  · constructor
    · rintro ⟨msg, hmsg⟩
      by_contra hne
      rw [Oplog.pushForRedo] at hmsg
      rw [if_neg (by omega)] at hmsg
      exact Except.noConfusion hmsg
    · intro heq
      refine ⟨"Nothing to redo", ?_⟩
      rw [Oplog.pushForRedo, if_pos (by omega)]
  · intro s' out hok
    rw [Oplog.pushForRedo] at hok
    by_cases h0 : s.entries.length - s.header.pointer = 0
    · rw [if_pos h0] at hok
      exact Except.noConfusion hok
    · rw [if_neg h0] at hok
      simp only [Except.ok.injEq, Prod.mk.injEq] at hok
      obtain ⟨rfl, rfl⟩ := hok
      refine ⟨?_, rfl, ?_, ?_⟩
      · show s.header.pointer + min count (s.entries.length - s.header.pointer) =
          s.header.pointer + min count (s.header.total - s.header.pointer)
        omega
      · show s.entries.length = s.header.total
        omega
      · show s.header.pointer + min count (s.entries.length - s.header.pointer) ≤
          s.entries.length
        omega

/-- Witness for C5: a well-formed one-entry log with pointer 1, popped and
pushed with count 1. -/
theorem C5_log_pointer_bounds_witness :
    Oplog.Wf (LogState.mk (LogHeader.mk 1 1) [LogEntry.mk "t0" "pencil" ([] : List (CellMutation Nat))]) ∧
    ((∃ msg, Oplog.popForUndo
        (LogState.mk (LogHeader.mk 1 1) [LogEntry.mk "t0" "pencil" ([] : List (CellMutation Nat))]) 1 =
        .error msg) ↔
      (LogState.mk (LogHeader.mk 1 1)
        [LogEntry.mk "t0" "pencil" ([] : List (CellMutation Nat))]).header.pointer = 0) :=
  ⟨by decide,
    (C5_log_pointer_bounds
      (LogState.mk (LogHeader.mk 1 1) [LogEntry.mk "t0" "pencil" ([] : List (CellMutation Nat))]) 1
      (by decide)).1⟩

/-- Evaluation of `append` on a log whose pointer covers all entries (as is the
case after any previous append): no truncation happens, the new entry is pushed
at the back, and pruning drops the oldest overflow from the front. -/
theorem append_full {Cell : Type} (s : LogState Cell) (e : LogEntry Cell)
    (hfull : s.header.pointer = s.entries.length) :
    Oplog.append s e =
      ⟨⟨min (s.entries.length + 1) MAX_LOG_ENTRIES,
          min (s.entries.length + 1) MAX_LOG_ENTRIES⟩,
        (s.entries ++ [e]).drop (s.entries.length + 1 - MAX_LOG_ENTRIES)⟩ := by
  simp only [Oplog.append, hfull, List.take_length]
  by_cases hbig : (s.entries ++ [e]).length > MAX_LOG_ENTRIES
  · rw [if_pos hbig]
    have hlen : ((s.entries ++ [e]).drop ((s.entries ++ [e]).length - MAX_LOG_ENTRIES)).length =
        min (s.entries.length + 1) MAX_LOG_ENTRIES := by
      rw [List.length_drop, List.length_append]
      simp only [List.length_cons, List.length_nil] at hbig ⊢
      omega
    rw [hlen]
    have harg : (s.entries ++ [e]).length - MAX_LOG_ENTRIES =
        s.entries.length + 1 - MAX_LOG_ENTRIES := by
      rw [List.length_append]
      rfl
    rw [harg]
  · rw [if_neg hbig]
    have hlen : (s.entries ++ [e]).length = s.entries.length + 1 := by
      rw [List.length_append]
      rfl
    have hdrop : s.entries.length + 1 - MAX_LOG_ENTRIES = 0 := by
      rw [hlen] at hbig
      omega
    rw [hdrop, List.drop_zero, hlen]
    have hmin : (s.entries.length + 1) ⊓ MAX_LOG_ENTRIES = s.entries.length + 1 := by
      rw [hlen] at hbig
      omega
    rw [hmin]

theorem drop_append_drop {α : Type} (l r : List α) (k j : Nat) (hk : k ≤ l.length) :
    (l.drop k ++ r).drop j = (l ++ r).drop (k + j) := by
  rw [← List.drop_append_of_le_length hk, List.drop_drop, Nat.add_comm]

/-- Folded appends over a full, capped log state: the retained entries are the
suffix of the concatenated stream, and pointer = total = its length. -/
theorem appendAll_full {Cell : Type} (es : List (LogEntry Cell)) (s : LogState Cell)
    (hfull : s.header.pointer = s.entries.length)
    (hle : s.entries.length ≤ MAX_LOG_ENTRIES)
    (ht : s.header.total = s.entries.length) :
    (Oplog.appendAll s es).entries =
      (s.entries ++ es).drop (s.entries.length + es.length - MAX_LOG_ENTRIES) ∧
    (Oplog.appendAll s es).header.pointer =
      min (s.entries.length + es.length) MAX_LOG_ENTRIES ∧
    (Oplog.appendAll s es).header.total =
      min (s.entries.length + es.length) MAX_LOG_ENTRIES := by
  induction es generalizing s with
  | nil =>
    have h0 : s.entries.length + ([] : List (LogEntry Cell)).length - MAX_LOG_ENTRIES = 0 := by
      simp only [List.length_nil]
      omega
    refine ⟨?_, ?_, ?_⟩
    · rw [h0, List.drop_zero, List.append_nil]
      rfl
    · show s.header.pointer = _
      simp only [List.length_nil]
      omega
    · show s.header.total = _
      simp only [List.length_nil]
      omega
  | cons e rest ih =>
    have hstep : Oplog.appendAll s (e :: rest) = Oplog.appendAll (Oplog.append s e) rest :=
      rfl
    rw [hstep, append_full s e hfull]
    have hlen' : ((s.entries ++ [e]).drop
        (s.entries.length + 1 - MAX_LOG_ENTRIES)).length =
        min (s.entries.length + 1) MAX_LOG_ENTRIES := by
      rw [List.length_drop, List.length_append]
      simp only [List.length_cons, List.length_nil]
      omega
    obtain ⟨ihe, ihp, iht⟩ := ih ⟨⟨min (s.entries.length + 1) MAX_LOG_ENTRIES,
        min (s.entries.length + 1) MAX_LOG_ENTRIES⟩,
      (s.entries ++ [e]).drop (s.entries.length + 1 - MAX_LOG_ENTRIES)⟩
      (by rw [hlen']) (by rw [hlen']; omega) (by rw [hlen'])
    refine ⟨?_, ?_, ?_⟩
    · rw [ihe]
      simp only [hlen']
      rw [drop_append_drop _ _ _ _
        (by rw [List.length_append]; simp only [List.length_cons, List.length_nil]; omega)]
      have harith : s.entries.length + 1 - MAX_LOG_ENTRIES +
          (min (s.entries.length + 1) MAX_LOG_ENTRIES + rest.length - MAX_LOG_ENTRIES) =
          s.entries.length + (e :: rest).length - MAX_LOG_ENTRIES := by
        simp only [List.length_cons]
        omega
      rw [harith, List.append_assoc]
      rfl
    · rw [ihp]
      simp only [hlen', List.length_cons]
      omega
    · rw [iht]
      simp only [hlen', List.length_cons]
      omega

/-- C6: starting from the empty log, after any sequence of appends the log
retains exactly the most recent `MAX_LOG_ENTRIES` (256) entries — the suffix of
the appended sequence, so entries are dropped only from the oldest end — and the
header satisfies pointer = total = number of retained entries.  Applied to every
prefix of the append sequence, this holds after each individual append. -/
theorem C6_prune {Cell : Type} (es : List (LogEntry Cell)) :
    (Oplog.appendAll Oplog.initLog es).entries = es.drop (es.length - MAX_LOG_ENTRIES) ∧
    (Oplog.appendAll Oplog.initLog es).header.pointer = min es.length MAX_LOG_ENTRIES ∧
    (Oplog.appendAll Oplog.initLog es).header.total = min es.length MAX_LOG_ENTRIES := by
  have h := appendAll_full es (Oplog.initLog : LogState Cell) rfl (by simp [Oplog.initLog]) rfl
  simpa [Oplog.initLog] using h

theorem foldl_flatMap {α β γ : Type} (l : List α) (f : α → List β) (g : γ → β → γ)
    (init : γ) :
    (l.flatMap f).foldl g init = l.foldl (fun acc a => (f a).foldl g acc) init := by
  induction l generalizing init with
  | nil => rfl
  | cons a rest ih => rw [List.flatMap_cons, List.foldl_append, List.foldl_cons, ih]

/-- C10: `pop_for_undo` returns the undone entries in oldest-first
(chronological) order — the i-th returned entry is the log entry at index
`new_pointer + i` — and the CLI undo command applies the returned mutations'
`old` values in exactly that forward order: entries first-to-last, each entry's
mutation list front-to-back, equal to a single forward fold over the
concatenated mutation stream. -/
theorem C10_pop_order {Cell : Type} (s : LogState Cell) (count : Nat) (g : Grid Cell)
    (hwf : Oplog.Wf s) (s' : LogState Cell) (out : List (LogEntry Cell))
    (hok : Oplog.popForUndo s count = .ok (s', out)) :
    (∀ i, i < out.length →
      out[i]? = s.entries[s.header.pointer - min count s.header.pointer + i]?) ∧
    out.length = min count s.header.pointer ∧
    cliUndoApply g out =
      (out.flatMap (fun e => e.mutations)).foldl (fun g m => g.set m.x m.y m.old) g := by
  obtain ⟨hp, _⟩ := hwf
  have hout : out = (s.entries.take s.header.pointer).drop
      (s.header.pointer - min count s.header.pointer) := by
    by_cases hp0 : s.header.pointer = 0
    · rw [Oplog.popForUndo, if_pos hp0] at hok
      exact Except.noConfusion hok
    · rw [Oplog.popForUndo, if_neg hp0] at hok
      simp only [Except.ok.injEq, Prod.mk.injEq] at hok
      exact hok.2.symm
  refine ⟨?_, ?_, ?_⟩
  · intro i hi
    rw [hout, List.getElem?_drop, List.getElem?_take_of_lt]
    rw [hout, List.length_drop, List.length_take] at hi
    omega
  · rw [hout, List.length_drop, List.length_take]
    omega
  · rw [cliUndoApply, foldl_flatMap]

/-- Witness for C10: a two-entry log with pointer 2, both entries undone at
once; the returned list has length `min 2 2 = 2`. -/
theorem C10_pop_order_witness :
    Oplog.Wf (LogState.mk (LogHeader.mk 2 2)
      [LogEntry.mk "t1" "pencil" [CellMutation.mk 0 0 0 1],
       LogEntry.mk "t2" "pencil" [CellMutation.mk 0 0 1 2]]) ∧
    Oplog.popForUndo (LogState.mk (LogHeader.mk 2 2)
      [LogEntry.mk "t1" "pencil" [CellMutation.mk 0 0 0 1],
       LogEntry.mk "t2" "pencil" [CellMutation.mk 0 0 1 2]]) 2 =
      .ok (LogState.mk (LogHeader.mk 0 2)
        [LogEntry.mk "t1" "pencil" [CellMutation.mk 0 0 0 1],
         LogEntry.mk "t2" "pencil" [CellMutation.mk 0 0 1 2]],
        [LogEntry.mk "t1" "pencil" [CellMutation.mk 0 0 0 1],
         LogEntry.mk "t2" "pencil" [CellMutation.mk 0 0 1 2]]) ∧
    ([LogEntry.mk "t1" "pencil" [CellMutation.mk 0 0 0 1],
      LogEntry.mk "t2" "pencil" [CellMutation.mk 0 0 1 2]] :
        List (LogEntry Nat)).length = min 2 2 :=
  ⟨by decide, rfl,
    (C10_pop_order (LogState.mk (LogHeader.mk 2 2)
        [LogEntry.mk "t1" "pencil" [CellMutation.mk 0 0 0 1],
         LogEntry.mk "t2" "pencil" [CellMutation.mk 0 0 1 2]]) 2
      (Grid.mk 1 1 (fun _ _ => 0)) (by decide)
      (LogState.mk (LogHeader.mk 0 2)
        [LogEntry.mk "t1" "pencil" [CellMutation.mk 0 0 0 1],
         LogEntry.mk "t2" "pencil" [CellMutation.mk 0 0 1 2]])
      [LogEntry.mk "t1" "pencil" [CellMutation.mk 0 0 0 1],
       LogEntry.mk "t2" "pencil" [CellMutation.mk 0 0 1 2]] rfl).2.1⟩

/-- C8: on a 16×16 grid, a pencil write of a fresh value `v` at (2,5) expanded
with Horizontal symmetry produces, in addition to the mutation at (2,5), a
mutation at the mirrored coordinate (13,5) = (width−1−2, 5) with the same `new`
value, and after applying the expanded mutations both cells hold `v`. -/
theorem C8_symmetry_horizontal {Cell : Type} [DecidableEq Cell] (g : Grid Cell)
    (hw : g.width = 16) (hh : g.height = 16) (v : Cell) (hdiff : g.get 2 5 ≠ some v) :
    (∃ m ∈ applySymmetry (pencil g 2 5 v) SymmetryMode.horizontal 16 16,
      m.x = 2 ∧ m.y = 5 ∧ m.new = v) ∧
    (∃ m ∈ applySymmetry (pencil g 2 5 v) SymmetryMode.horizontal 16 16,
      m.x = 13 ∧ m.y = 5 ∧ m.new = v) ∧
    (applyMutations g
      (applySymmetry (pencil g 2 5 v) SymmetryMode.horizontal 16 16)).get 2 5 = some v ∧
    (applyMutations g
      (applySymmetry (pencil g 2 5 v) SymmetryMode.horizontal 16 16)).get 13 5 = some v := by
  have hget : g.get 2 5 = some (g.cells 2 5) := by
    rw [Grid.get, if_pos (by constructor <;> omega)]
  have hne : g.cells 2 5 ≠ v := by
    intro hcon
    exact hdiff (by rw [hget, hcon])
  have hpencil : pencil g 2 5 v = [CellMutation.mk 2 5 (g.cells 2 5) v] := by
    unfold pencil
    rw [hget]
    show (if g.cells 2 5 ≠ v then [CellMutation.mk 2 5 (g.cells 2 5) v] else []) = _
    rw [if_pos hne]
  have hsym : applySymmetry [CellMutation.mk 2 5 (g.cells 2 5) v]
      SymmetryMode.horizontal 16 16 =
      [CellMutation.mk 2 5 (g.cells 2 5) v, CellMutation.mk 13 5 (g.cells 2 5) v] := by
    rfl
  rw [hpencil, hsym]
  have happly : applyMutations g
      [CellMutation.mk 2 5 (g.cells 2 5) v, CellMutation.mk 13 5 (g.cells 2 5) v] =
      (g.set 2 5 v).set 13 5 v := rfl
  have hb₁ : (2 : Nat) < g.width ∧ (5 : Nat) < g.height := by omega
  have hb₂ : (13 : Nat) < (g.set 2 5 v).width ∧ (5 : Nat) < (g.set 2 5 v).height := by
    rw [Grid.width_set, Grid.height_set]
    omega
  refine ⟨⟨CellMutation.mk 2 5 (g.cells 2 5) v, List.mem_cons_self _ _, rfl, rfl, rfl⟩,
    ⟨CellMutation.mk 13 5 (g.cells 2 5) v,
      List.mem_cons_of_mem _ (List.mem_cons_self _ _), rfl, rfl, rfl⟩, ?_, ?_⟩
  · rw [happly, Grid.get_set_ne _ (by omega), Grid.get_set_self hb₁.1 hb₁.2]
  · rw [happly, Grid.get_set_self hb₂.1 hb₂.2]

/-- Witness for C8: the all-zero 16×16 grid with pencil value 1; after expansion
both (2,5) and (13,5) hold 1. -/
theorem C8_symmetry_horizontal_witness :
    (Grid.mk 16 16 (fun _ _ => 0)).width = 16 ∧
    (Grid.mk 16 16 (fun _ _ => 0)).get 2 5 ≠ some 1 ∧
    (applyMutations (Grid.mk 16 16 (fun _ _ => 0))
      (applySymmetry (pencil (Grid.mk 16 16 (fun _ _ => 0)) 2 5 1)
        SymmetryMode.horizontal 16 16)).get 2 5 = some 1 ∧
    (applyMutations (Grid.mk 16 16 (fun _ _ => 0))
      (applySymmetry (pencil (Grid.mk 16 16 (fun _ _ => 0)) 2 5 1)
        SymmetryMode.horizontal 16 16)).get 13 5 = some 1 :=
  ⟨rfl, by decide,
    (C8_symmetry_horizontal (Grid.mk 16 16 (fun _ _ => 0)) rfl rfl 1 (by decide)).2.2.1,
    (C8_symmetry_horizontal (Grid.mk 16 16 (fun _ _ => 0)) rfl rfl 1 (by decide)).2.2.2⟩

/-- Membership in the neighbor pushes: anything on the new stack was either on
the old stack or is 4-adjacent to the processed coordinate. -/
theorem mem_pushNeighbors {x y : Nat} {rest : List (Nat × Nat)} {p : Nat × Nat}
    (h : p ∈ pushNeighbors x y rest) : p ∈ rest ∨ Adjacent (x, y) p := by
  unfold pushNeighbors at h
  split_ifs at h <;>
    (repeat' rcases List.mem_cons.mp h with rfl | h) <;>
    first
      | exact Or.inl h
      | exact Or.inr (Or.inl ⟨rfl, Or.inl (by omega)⟩)
      | exact Or.inr (Or.inl ⟨rfl, Or.inr (by omega)⟩)
      | exact Or.inr (Or.inr ⟨rfl, Or.inl (by omega)⟩)
      | exact Or.inr (Or.inr ⟨rfl, Or.inr (by omega)⟩)

/-- Loop invariant for `floodLoop`: if every stacked coordinate is reachable
from the seed through target-valued cells, and the accumulator's mutations have
distinct visited coordinates all matching the target and all reachable, the same
holds of the loop's final output. -/
theorem floodLoop_spec {Cell : Type} [DecidableEq Cell] (c : Canvas Cell)
    (target nw : Cell) (seed : Nat × Nat) (visited : Finset (Nat × Nat))
    (stack : List (Nat × Nat)) (acc : List (CellMutation Cell))
    (hstack : ∀ p ∈ stack, Reaches c target seed p)
    (haccnd : (acc.map (fun m => (m.x, m.y))).Nodup)
    (haccv : ∀ m ∈ acc, (m.x, m.y) ∈ visited)
    (hacc : ∀ m ∈ acc, c.get m.x m.y = some target ∧ Reaches c target seed (m.x, m.y)) :
    ((floodLoop c target nw visited stack acc).map (fun m => (m.x, m.y))).Nodup ∧
    ∀ m ∈ floodLoop c target nw visited stack acc,
      c.get m.x m.y = some target ∧ Reaches c target seed (m.x, m.y) := by
  revert hstack haccnd haccv hacc
  induction visited, stack, acc using floodLoop.induct c target nw with
  | case1 visited acc =>
    intro hstack haccnd haccv hacc
    rw [floodLoop]
    exact ⟨haccnd, hacc⟩
  | case2 visited acc x y rest hcond ih =>
    intro hstack haccnd haccv hacc
    rw [floodLoop, if_pos hcond]
    exact ih (fun p hp => hstack p (List.mem_cons_of_mem _ hp)) haccnd haccv hacc
  | case3 visited acc x y rest hcond hne ih =>
    intro hstack haccnd haccv hacc
    rw [floodLoop, if_neg hcond, if_pos hne]
    exact ih (fun p hp => hstack p (List.mem_cons_of_mem _ hp)) haccnd haccv hacc
  | case4 visited acc x y rest hcond hne ih =>
    intro hstack haccnd haccv hacc
    rw [floodLoop, if_neg hcond, if_neg hne]
    have hget : c.get x y = some target := not_not.mp hne
    have hxy : (x, y) ∉ visited := fun hmem => hcond (Or.inr (Or.inr hmem))
    have hreach : Reaches c target seed (x, y) := hstack (x, y) (List.mem_cons_self _ _)
    refine ih ?_ ?_ ?_ ?_
    · intro p hp
      rcases mem_pushNeighbors hp with hp | hadj
      · exact hstack p (List.mem_cons_of_mem _ hp)
      · exact Reaches.step hreach hget hadj
    · rw [List.map_append]
      rw [List.nodup_append]
      refine ⟨haccnd, List.nodup_singleton _, ?_⟩
      intro q hq hq'
      simp only [List.map_cons, List.map_nil, List.mem_singleton] at hq'
      subst hq'
      obtain ⟨m, hm, hmq⟩ := List.mem_map.mp hq
      exact hxy (hmq ▸ haccv m hm)
    · intro m hm
      rcases List.mem_append.mp hm with hm | hm
      · exact Finset.mem_insert_of_mem (haccv m hm)
      · rw [List.mem_singleton.mp hm]
        exact Finset.mem_insert_self _ _
    · intro m hm
      rcases List.mem_append.mp hm with hm | hm
      · exact hacc m hm
      · rw [List.mem_singleton.mp hm]
        exact ⟨hget, hreach⟩

/-- C9: for every canvas and every in-bounds seed, `flood_fill` emits mutations
only at coordinates whose current cell equals the seed's cell value and that are
4-connected to the seed through such cells, and no coordinate is mutated twice.
In particular a region fully enclosed by differently-valued border cells is
filled without ever mutating a border cell (its value differs from the target)
or any cell beyond it (not 4-connected to the seed through target cells). -/
theorem C9_flood_fill_boundary {Cell : Type} [DecidableEq Cell] (c : Canvas Cell)
    (sx sy : Nat) (nw : Cell) (target : Cell) (hseed : c.get sx sy = some target) :
    ((flood_fill c sx sy nw).map (fun m => (m.x, m.y))).Nodup ∧
    ∀ m ∈ flood_fill c sx sy nw,
      c.get m.x m.y = some target ∧ Reaches c target (sx, sy) (m.x, m.y) := by
  have hrw : flood_fill c sx sy nw =
      if target = nw then [] else floodLoop c target nw ∅ [(sx, sy)] [] := by
    unfold flood_fill
    rw [hseed]
  rw [hrw]
  by_cases heq : target = nw
  · rw [if_pos heq]
    exact ⟨List.nodup_nil, fun m hm => absurd hm (List.not_mem_nil m)⟩
  · rw [if_neg heq]
    refine floodLoop_spec c target nw (sx, sy) ∅ [(sx, sy)] [] ?_ List.nodup_nil
      (fun m hm => absurd hm (List.not_mem_nil m))
      (fun m hm => absurd hm (List.not_mem_nil m))
    intro p hp
    rw [List.mem_singleton.mp hp]
    exact Reaches.refl

/-- Witness for C9: a canvas whose only 0-cell is the origin; the fill from the
seed (0,0) emits exactly one mutation and the invariants hold at it. -/
theorem C9_flood_fill_boundary_witness :
    (Canvas.mk (fun b a => if b = 0 ∧ a = 0 then 0 else 1)).get 0 0 = some 0 ∧
    ((flood_fill (Canvas.mk (fun b a => if b = 0 ∧ a = 0 then 0 else 1)) 0 0 2).map
      (fun m => (m.x, m.y))).Nodup :=
  ⟨by decide,
    (C9_flood_fill_boundary (Canvas.mk (fun b a => if b = 0 ∧ a = 0 then 0 else 1)) 0 0 2 0
      (by decide)).1⟩

/-! Bresenham.  The loop state after `a` x-steps and `b` y-steps is
`(x0 + a·sx, y0 + b·sy)` with exact error `err = dx + dy + a·dy + b·dx`; the
lemmas below follow the loop through that parametrization. -/

theorem step_reach_iff (P0 P1 s : Int) (k : Nat) (hs : s = if P0 < P1 then 1 else -1)
    (hk : (k : Int) ≤ |P1 - P0|) : P0 + k * s = P1 ↔ (k : Int) = |P1 - P0| := by
  rcases lt_trichotomy P0 P1 with h | h | h
  · have habs : |P1 - P0| = P1 - P0 := abs_of_nonneg (by omega)
    rw [hs, if_pos h, mul_one, habs]
    omega
  · have habs : |P1 - P0| = 0 := by rw [h]; simp
    rw [hs, if_neg (by omega), habs]
    rw [habs] at hk
    omega
  · have habs : |P1 - P0| = -(P1 - P0) := abs_of_nonpos (by omega)
    rw [hs, if_neg (by omega), habs]
    omega

theorem step_between (P0 P1 s : Int) (k : Nat) (hs : s = if P0 < P1 then 1 else -1)
    (hk : (k : Int) ≤ |P1 - P0|) :
    min P0 P1 ≤ P0 + k * s ∧ P0 + k * s ≤ max P0 P1 := by
  rcases lt_trichotomy P0 P1 with h | h | h
  · have habs : |P1 - P0| = P1 - P0 := abs_of_nonneg (by omega)
    rw [habs] at hk
    rw [hs, if_pos h, mul_one]
    omega
  · have habs : |P1 - P0| = 0 := by rw [h]; simp
    rw [habs] at hk
    rw [hs, if_neg (by omega)]
    omega
  · have habs : |P1 - P0| = -(P1 - P0) := abs_of_nonpos (by omega)
    rw [habs] at hk
    rw [hs, if_neg (by omega)]
    omega

/-- One-iteration facts at a non-final loop state: an x-step never overshoots,
a y-step never overshoots, and at least one of the two fires. -/
theorem bres_step_bounds (dx dy : Int) (hdx0 : 0 ≤ dx) (hdy0 : dy ≤ 0) (a b : Nat)
    (ha : (a : Int) ≤ dx) (hb : (b : Int) ≤ -dy)
    (hnb : ¬((a : Int) = dx ∧ (b : Int) = -dy)) (err : Int)
    (herr : err = dx + dy + a * dy + b * dx) :
    (2 * err ≥ dy → (a : Int) + 1 ≤ dx) ∧
    (2 * err ≤ dx → (b : Int) + 1 ≤ -dy) ∧
    (2 * err ≥ dy ∨ 2 * err ≤ dx) := by
  refine ⟨?_, ?_, ?_⟩
  · intro hx
    by_contra hcon
    have haeq : (a : Int) = dx := by omega
    have hblt : (b : Int) ≤ -dy - 1 := by
      rcases lt_or_ge (b : Int) (-dy) with h | h
      · omega
      · exact absurd ⟨haeq, by omega⟩ hnb
    have hprod : (b : Int) * dx ≤ (-dy - 1) * dx :=
      mul_le_mul_of_nonneg_right hblt hdx0
    have hadx : (a : Int) * dy = dx * dy := by rw [haeq]
    nlinarith [hx, herr, hprod, hadx]
  · intro hy
    by_contra hcon
    have hbeq : (b : Int) = -dy := by omega
    have halt : (a : Int) ≤ dx - 1 := by
      rcases lt_or_ge (a : Int) dx with h | h
      · omega
      · exact absurd ⟨by omega, hbeq⟩ hnb
    have hprod : (a : Int) * dy ≥ (dx - 1) * dy :=
      mul_le_mul_of_nonpos_right halt hdy0
    have hbdx : (b : Int) * dx = -dy * dx := by rw [hbeq]
    nlinarith [hy, herr, hprod, hbdx]
  · by_contra hcon
    push_neg at hcon
    omega

/-- Mirror lemma for the Bresenham loop: the reverse traversal (targets swapped,
step signs mirrored) visits, step for step, the point reflection of the forward
traversal through the segment midpoint.  Both runs share `dx`, `dy` and the
error sequence, so they take identical branch decisions. -/
theorem bresenhamAux_mirror (X0 Y0 X1 Y1 dx dy sxF syF sxR syR : Int)
    (hdx : dx = |X1 - X0|) (hdy : dy = -|Y1 - Y0|)
    (hsxF : sxF = if X0 < X1 then 1 else -1) (hsyF : syF = if Y0 < Y1 then 1 else -1)
    (hsxR : sxR = if X1 < X0 then 1 else -1) (hsyR : syR = if Y1 < Y0 then 1 else -1) :
    ∀ (fuel : Nat) (a b : Nat) (err : Int), (a : Int) ≤ dx → (b : Int) ≤ -dy →
      err = dx + dy + a * dy + b * dx →
      bresenhamAux X0 Y0 dx dy sxR syR fuel (X1 + a * sxR) (Y1 + b * syR) err =
        (bresenhamAux X1 Y1 dx dy sxF syF fuel (X0 + a * sxF) (Y0 + b * syF) err).map
          (fun p => (X0 + X1 - p.1, Y0 + Y1 - p.2)) := by
  have hdx0 : 0 ≤ dx := hdx ▸ abs_nonneg _
  have hdy0 : dy ≤ 0 := by rw [hdy]; exact neg_nonpos_of_nonneg (abs_nonneg _)
  intro fuel
  induction fuel with
  | zero => intro a b err _ _ _; rfl
  | succ n ih =>
    intro a b err ha hb herr
    have hax : (a : Int) * sxR = -((a : Int) * sxF) := by
      rcases lt_trichotomy X0 X1 with h | h | h
      · rw [hsxR, if_neg (by omega), hsxF, if_pos h]; ring
      · have hdx00 : dx = 0 := by rw [hdx, h]; simp
        have ha0 : (a : Int) = 0 := by omega
        rw [ha0]; ring
      · rw [hsxR, if_pos h, hsxF, if_neg (by omega)]; ring
    have hby : (b : Int) * syR = -((b : Int) * syF) := by
      rcases lt_trichotomy Y0 Y1 with h | h | h
      · rw [hsyR, if_neg (by omega), hsyF, if_pos h]; ring
      · have hdy00 : dy = 0 := by rw [hdy, h]; simp
        have hb0 : (b : Int) = 0 := by omega
        rw [hb0]; ring
      · rw [hsyR, if_pos h, hsyF, if_neg (by omega)]; ring
    have hRx : X1 + (a : Int) * sxR = X0 + X1 - (X0 + a * sxF) := by rw [hax]; ring
    have hRy : Y1 + (b : Int) * syR = Y0 + Y1 - (Y0 + b * syF) := by rw [hby]; ring
    have hkx : (a : Int) ≤ |X1 - X0| := hdx ▸ ha
    have hky : (b : Int) ≤ |Y1 - Y0| := by rw [hdy] at hb; omega
    have hkxR : (a : Int) ≤ |X0 - X1| := by rw [abs_sub_comm]; exact hkx
    have hkyR : (b : Int) ≤ |Y0 - Y1| := by rw [abs_sub_comm]; exact hky
    have hbreakF : (X0 + (a : Int) * sxF = X1 ∧ Y0 + (b : Int) * syF = Y1) ↔
        ((a : Int) = dx ∧ (b : Int) = -dy) := by
      rw [step_reach_iff X0 X1 sxF a hsxF hkx, step_reach_iff Y0 Y1 syF b hsyF hky,
        ← hdx, hdy]
      constructor
      · rintro ⟨h₁, h₂⟩; exact ⟨h₁, by omega⟩
      · rintro ⟨h₁, h₂⟩; exact ⟨h₁, by omega⟩
    have hbreakR : (X1 + (a : Int) * sxR = X0 ∧ Y1 + (b : Int) * syR = Y0) ↔
        ((a : Int) = dx ∧ (b : Int) = -dy) := by
      rw [step_reach_iff X1 X0 sxR a hsxR hkxR, step_reach_iff Y1 Y0 syR b hsyR hkyR,
        abs_sub_comm X0 X1, abs_sub_comm Y0 Y1, ← hdx, hdy]
      constructor
      · rintro ⟨h₁, h₂⟩; exact ⟨h₁, by omega⟩
      · rintro ⟨h₁, h₂⟩; exact ⟨h₁, by omega⟩
    rw [bresenhamAux, bresenhamAux]
    by_cases hbrk : X0 + (a : Int) * sxF = X1 ∧ Y0 + (b : Int) * syF = Y1
    · rw [if_pos hbrk, if_pos (hbreakR.mpr (hbreakF.mp hbrk))]
      simp only [List.map_cons, List.map_nil]
      rw [hRx, hRy]
    · rw [if_neg hbrk, if_neg (fun hc => hbrk (hbreakF.mpr (hbreakR.mp hc)))]
      simp only [List.map_cons]
      refine congrArg₂ List.cons (by rw [hRx, hRy]) ?_
      obtain ⟨hstepx, hstepy, hprog⟩ :=
        bres_step_bounds dx dy hdx0 hdy0 a b ha hb
          (fun hc => hbrk (hbreakF.mpr hc)) err herr
      by_cases hx : 2 * err ≥ dy
      · by_cases hy : 2 * err ≤ dx
        · simp only [eq_true hx, eq_true hy, if_true]
          have hgoal := ih (a + 1) (b + 1) (err + dy + dx)
            (by push_cast; exact hstepx hx) (by push_cast; exact hstepy hy)
            (by rw [herr]; push_cast; ring)
          have e₁ : X1 + (a : Int) * sxR + sxR = X1 + ((a : Nat) + 1 : Nat) * sxR := by
            push_cast; ring
          have e₂ : Y1 + (b : Int) * syR + syR = Y1 + ((b : Nat) + 1 : Nat) * syR := by
            push_cast; ring
          have e₃ : X0 + (a : Int) * sxF + sxF = X0 + ((a : Nat) + 1 : Nat) * sxF := by
            push_cast; ring
          have e₄ : Y0 + (b : Int) * syF + syF = Y0 + ((b : Nat) + 1 : Nat) * syF := by
            push_cast; ring
          rw [e₁, e₂, e₃, e₄]
          exact hgoal
        · simp only [eq_true hx, eq_false hy, if_true, if_false]
          have hgoal := ih (a + 1) b (err + dy)
            (by push_cast; exact hstepx hx) hb
            (by rw [herr]; push_cast; ring)
          have e₁ : X1 + (a : Int) * sxR + sxR = X1 + ((a : Nat) + 1 : Nat) * sxR := by
            push_cast; ring
          have e₃ : X0 + (a : Int) * sxF + sxF = X0 + ((a : Nat) + 1 : Nat) * sxF := by
            push_cast; ring
          rw [e₁, e₃]
          exact hgoal
      · have hy : 2 * err ≤ dx := by
          rcases hprog with h | h
          · exact absurd h hx
          · exact h
        simp only [eq_false hx, eq_true hy, if_true, if_false]
        have hgoal := ih a (b + 1) (err + dx)
          ha (by push_cast; exact hstepy hy)
          (by rw [herr]; push_cast; ring)
        have e₂ : Y1 + (b : Int) * syR + syR = Y1 + ((b : Nat) + 1 : Nat) * syR := by
          push_cast; ring
        have e₄ : Y0 + (b : Int) * syF + syF = Y0 + ((b : Nat) + 1 : Nat) * syF := by
          push_cast; ring
        rw [e₂, e₄]
        exact hgoal

/-- Every point the Bresenham loop emits stays inside the bounding box of the
two endpoints. -/
theorem bresenhamAux_mem_bounds (X0 Y0 X1 Y1 dx dy sxF syF : Int)
    (hdx : dx = |X1 - X0|) (hdy : dy = -|Y1 - Y0|)
    (hsxF : sxF = if X0 < X1 then 1 else -1) (hsyF : syF = if Y0 < Y1 then 1 else -1) :
    ∀ (fuel : Nat) (a b : Nat) (err : Int), (a : Int) ≤ dx → (b : Int) ≤ -dy →
      err = dx + dy + a * dy + b * dx →
      ∀ p ∈ bresenhamAux X1 Y1 dx dy sxF syF fuel (X0 + a * sxF) (Y0 + b * syF) err,
        min X0 X1 ≤ p.1 ∧ p.1 ≤ max X0 X1 ∧ min Y0 Y1 ≤ p.2 ∧ p.2 ≤ max Y0 Y1 := by
  have hdx0 : 0 ≤ dx := hdx ▸ abs_nonneg _
  have hdy0 : dy ≤ 0 := by rw [hdy]; exact neg_nonpos_of_nonneg (abs_nonneg _)
  intro fuel
  induction fuel with
  | zero => intro a b err _ _ _ p hp; exact absurd hp (List.not_mem_nil p)
  | succ n ih =>
    intro a b err ha hb herr p hp
    have hkx : (a : Int) ≤ |X1 - X0| := hdx ▸ ha
    have hky : (b : Int) ≤ |Y1 - Y0| := by rw [hdy] at hb; omega
    rw [bresenhamAux] at hp
    rcases List.mem_cons.mp hp with rfl | hp
    · obtain ⟨hx₁, hx₂⟩ := step_between X0 X1 sxF a hsxF hkx
      obtain ⟨hy₁, hy₂⟩ := step_between Y0 Y1 syF b hsyF hky
      exact ⟨hx₁, hx₂, hy₁, hy₂⟩
    · by_cases hbrk : X0 + (a : Int) * sxF = X1 ∧ Y0 + (b : Int) * syF = Y1
      · rw [if_pos hbrk] at hp
        exact absurd hp (List.not_mem_nil p)
      · rw [if_neg hbrk] at hp
        have hbreakF : (X0 + (a : Int) * sxF = X1 ∧ Y0 + (b : Int) * syF = Y1) ↔
            ((a : Int) = dx ∧ (b : Int) = -dy) := by
          rw [step_reach_iff X0 X1 sxF a hsxF hkx, step_reach_iff Y0 Y1 syF b hsyF hky,
            ← hdx, hdy]
          constructor
          · rintro ⟨h₁, h₂⟩; exact ⟨h₁, by omega⟩
          · rintro ⟨h₁, h₂⟩; exact ⟨h₁, by omega⟩
        obtain ⟨hstepx, hstepy, hprog⟩ :=
          bres_step_bounds dx dy hdx0 hdy0 a b ha hb
            (fun hc => hbrk (hbreakF.mpr hc)) err herr
        by_cases hx : 2 * err ≥ dy
        · by_cases hy : 2 * err ≤ dx
          · simp only [eq_true hx, eq_true hy, if_true] at hp
            have e₃ : X0 + (a : Int) * sxF + sxF = X0 + ((a : Nat) + 1 : Nat) * sxF := by
              push_cast; ring
            have e₄ : Y0 + (b : Int) * syF + syF = Y0 + ((b : Nat) + 1 : Nat) * syF := by
              push_cast; ring
            rw [e₃, e₄] at hp
            exact ih (a + 1) (b + 1) (err + dy + dx)
              (by push_cast; exact hstepx hx) (by push_cast; exact hstepy hy)
              (by rw [herr]; push_cast; ring) p hp
          · simp only [eq_true hx, eq_false hy, if_true, if_false] at hp
            have e₃ : X0 + (a : Int) * sxF + sxF = X0 + ((a : Nat) + 1 : Nat) * sxF := by
              push_cast; ring
            rw [e₃] at hp
            exact ih (a + 1) b (err + dy)
              (by push_cast; exact hstepx hx) hb
              (by rw [herr]; push_cast; ring) p hp
        · have hy : 2 * err ≤ dx := by
            rcases hprog with h | h
            · exact absurd h hx
            · exact h
          simp only [eq_false hx, eq_true hy, if_true, if_false] at hp
          have e₄ : Y0 + (b : Int) * syF + syF = Y0 + ((b : Nat) + 1 : Nat) * syF := by
            push_cast; ring
          rw [e₄] at hp
          exact ih a (b + 1) (err + dx)
            ha (by push_cast; exact hstepy hy)
            (by rw [herr]; push_cast; ring) p hp

/-- Unfolding of `bresenham_line` into the loop with its initial state. -/
theorem bresenham_line_eq (x0 y0 x1 y1 : Nat) :
    bresenham_line x0 y0 x1 y1 =
      (bresenhamAux (x1 : Int) (y1 : Int) (|(x1 : Int) - (x0 : Int)|)
        (-|(y1 : Int) - (y0 : Int)|)
        (if (x0 : Int) < (x1 : Int) then 1 else -1)
        (if (y0 : Int) < (y1 : Int) then 1 else -1)
        ((|(x1 : Int) - (x0 : Int)| - -|(y1 : Int) - (y0 : Int)|).toNat + 1)
        (x0 : Int) (y0 : Int)
        (|(x1 : Int) - (x0 : Int)| + -|(y1 : Int) - (y0 : Int)|)).map
        (fun p => (p.1.toNat, p.2.toNat)) :=
  rfl

/-- C7 (amended): for all endpoint pairs, the cells covered by the Bresenham
rasterization from (x1,y1) to (x0,y0) are exactly the point reflections
`(x,y) ↦ (x0+x1−x, y0+y1−y)` through the segment midpoint of the cells covered
from (x0,y0) to (x1,y1), in traversal order.  The two covered sets are therefore
congruent but not always equal: the combined-error tie-breaking is not symmetric
under direction reversal (see the counterexample at (0,0)–(2,1)). -/
theorem C7_bresenham_mirror (x0 y0 x1 y1 : Nat) :
    bresenham_line x1 y1 x0 y0 =
      (bresenham_line x0 y0 x1 y1).map (fun p => (x0 + x1 - p.1, y0 + y1 - p.2)) := by
  have ha0 : ((0 : Nat) : Int) ≤ |(x1 : Int) - (x0 : Int)| := by
    simp [abs_nonneg]
  have hb0 : ((0 : Nat) : Int) ≤ -(-|(y1 : Int) - (y0 : Int)|) := by
    simp [abs_nonneg]
  have herr0 : |(x1 : Int) - (x0 : Int)| + -|(y1 : Int) - (y0 : Int)| =
      |(x1 : Int) - (x0 : Int)| + -|(y1 : Int) - (y0 : Int)| +
        ((0 : Nat) : Int) * (-|(y1 : Int) - (y0 : Int)|) +
        ((0 : Nat) : Int) * |(x1 : Int) - (x0 : Int)| := by
    push_cast
    ring
  have hmirror := bresenhamAux_mirror (x0 : Int) (y0 : Int) (x1 : Int) (y1 : Int)
    (|(x1 : Int) - (x0 : Int)|) (-|(y1 : Int) - (y0 : Int)|)
    (if (x0 : Int) < (x1 : Int) then 1 else -1) (if (y0 : Int) < (y1 : Int) then 1 else -1)
    (if (x1 : Int) < (x0 : Int) then 1 else -1) (if (y1 : Int) < (y0 : Int) then 1 else -1)
    rfl rfl rfl rfl rfl rfl
    ((|(x1 : Int) - (x0 : Int)| - -|(y1 : Int) - (y0 : Int)|).toNat + 1) 0 0
    (|(x1 : Int) - (x0 : Int)| + -|(y1 : Int) - (y0 : Int)|)
    ha0 hb0 herr0
  have hbounds := bresenhamAux_mem_bounds (x0 : Int) (y0 : Int) (x1 : Int) (y1 : Int)
    (|(x1 : Int) - (x0 : Int)|) (-|(y1 : Int) - (y0 : Int)|)
    (if (x0 : Int) < (x1 : Int) then 1 else -1) (if (y0 : Int) < (y1 : Int) then 1 else -1)
    rfl rfl rfl rfl
    ((|(x1 : Int) - (x0 : Int)| - -|(y1 : Int) - (y0 : Int)|).toNat + 1) 0 0
    (|(x1 : Int) - (x0 : Int)| + -|(y1 : Int) - (y0 : Int)|)
    ha0 hb0 herr0
  simp only [Nat.cast_zero, zero_mul, add_zero] at hmirror hbounds
  rw [bresenham_line_eq x1 y1 x0 y0, bresenham_line_eq x0 y0 x1 y1]
  rw [abs_sub_comm (x0 : Int) (x1 : Int), abs_sub_comm (y0 : Int) (y1 : Int)]
  rw [hmirror, List.map_map, List.map_map]
  refine List.map_congr_left (fun p hp => ?_)
  obtain ⟨hx₁, hx₂, hy₁, hy₂⟩ := hbounds p hp
  simp only [Function.comp_apply]
  have hxmin : (0 : Int) ≤ min (x0 : Int) (x1 : Int) := by
    simp
  have hymin : (0 : Int) ≤ min (y0 : Int) (y1 : Int) := by
    simp
  have hxmax : max (x0 : Int) (x1 : Int) ≤ (x0 : Int) + (x1 : Int) := by
    simp [Int.le_add_of_nonneg_left, Int.le_add_of_nonneg_right]
  have hymax : max (y0 : Int) (y1 : Int) ≤ (y0 : Int) + (y1 : Int) := by
    simp [Int.le_add_of_nonneg_left, Int.le_add_of_nonneg_right]
  refine Prod.ext ?_ ?_
  · show ((x0 : Int) + (x1 : Int) - p.1).toNat = x0 + x1 - p.1.toNat
    omega
  · show ((y0 : Int) + (y1 : Int) - p.2).toNat = y0 + y1 - p.2.toNat
    omega

/-- Counterexample to C7 as stated: the segment (0,0)–(2,1) covers (1,1) when
drawn forward but its reverse traversal does not — tie-breaking on the shared
error term is direction-asymmetric, so the covered sets differ. -/
theorem C7_bresenham_counterexample :
    (1, 1) ∈ bresenham_line 0 0 2 1 ∧ (1, 1) ∉ bresenham_line 2 1 0 0 := by
  decide

end Kakukuma
